import Mathlib

/-! # Car wash simulator: shallow embedding and verified properties

Source: `src/Car Was Sim/main/MAINFILE - pa18.cpp`, class `CarWashSimulator`.

Modelling conventions.

* C++ `int` is `Int`, unbounded, in `run`, `run_all` and the argument parser;
  `run32` is `run` with every arithmetic result wrapped to 32 bits (`wrap32`),
  with fuel, since it need not terminate.
* `std::queue<int>` is a `List Int`: `push` appends at the back, `front` is the
  head, `pop` drops the head.
* The engine member `random` together with `distribute(0, 3)` is a sample
  stream `s : Nat → Int` plus a position `random : Nat`; one call of
  `distribute(random)` returns `s random` and advances the position by one.
* `double average_wait` is the exact rational quotient.
* `std::vector<SimulationResult> results` is a `List SimulationResult`,
  `push_back` appends at the back.
-/

namespace CarWash

/-- Record `SimulationResult` of the source. -/
structure SimulationResult where
  duration : Int
  total_cars : Int
  longest_wait : Int
  average_wait : ℚ
  deriving DecidableEq

/-- Local variables of `CarWashSimulator::run` together with the generator
position (the member `random`), which the loop body advances. -/
structure RunState where
  car_queue : List Int
  current_time : Int
  cars_washed : Int
  total_wait_time : Int
  max_wait_time : Int
  random : Nat
  deriving DecidableEq

/-- State on entry to the loop of `run` (source lines 39-43). -/
def RunState.init (random : Nat) : RunState :=
  { car_queue := [], current_time := 0, cars_washed := 0,
    total_wait_time := 0, max_wait_time := 0, random := random }

/-- Loop condition of `run` (source line 46). -/
def running (minutes : Int) (st : RunState) : Prop :=
  st.current_time < minutes ∨ st.car_queue ≠ []

instance (minutes : Int) (st : RunState) : Decidable (running minutes st) :=
  inferInstanceAs (Decidable (st.current_time < minutes ∨ st.car_queue ≠ []))

/-- Arrival phase of one tick (source lines 49-63). -/
def arrive (s : Nat → Int) (minutes : Int) (st : RunState) : RunState :=
  if st.current_time < minutes then
    let arrival_case := s st.random
    let q :=
      if arrival_case = 2 then st.car_queue ++ [st.current_time]
      else if arrival_case = 3 then
        (st.car_queue ++ [st.current_time]) ++ [st.current_time]
      else st.car_queue
    { st with car_queue := q, random := st.random + 1 }
  else st

/-- Service phase of one tick (source lines 66-86). -/
def serve (st : RunState) : RunState :=
  match st.car_queue with
  | [] => st
  | arrival_time :: rest =>
    let wait_time := st.current_time - arrival_time
    { st with
      car_queue := rest
      total_wait_time := st.total_wait_time + wait_time
      cars_washed := st.cars_washed + 1
      max_wait_time :=
        if wait_time > st.max_wait_time then wait_time else st.max_wait_time }

/-- One iteration of the loop body of `run` (source lines 47-89). -/
def tick (s : Nat → Int) (minutes : Int) (st : RunState) : RunState :=
  let st2 := serve (arrive s minutes st)
  { st2 with current_time := st2.current_time + 1 }

/-- Termination measure of the loop of `run`. -/
def fuelOf (minutes : Int) (st : RunState) : Nat :=
  2 * (minutes - st.current_time).toNat + st.car_queue.length

/-- The loop of `run` (source lines 46-90): iterate the body while the loop
condition holds. -/
def runLoop (s : Nat → Int) (minutes : Int) (st : RunState) : RunState :=
  if running minutes st then runLoop s minutes (tick s minutes st) else st
termination_by fuelOf minutes st
decreasing_by
  have h : running minutes st := by assumption
  obtain ⟨q, t, c, tw, mw, r⟩ := st
  simp only [running] at h
  simp only [fuelOf, tick, serve, arrive]
  by_cases ho : t < minutes
  · simp only [ho, if_true]
    by_cases h2 : s r = 2
    · simp only [h2, if_true]
      cases q <;> simp <;> omega
    · by_cases h3 : s r = 3
      · simp only [h3, if_true]
        cases q <;> simp <;> omega
      · simp only [h2, h3, if_false]
        cases q <;> simp <;> omega
  · simp only [ho, if_false]
    cases q with
    | nil => simp at h; exact absurd h ho
    | cons a rest => simp; omega

/-- Construction of the result record after the loop (source lines 93-108). -/
def mkResult (minutes : Int) (st : RunState) : SimulationResult :=
  { duration := minutes
    total_cars := st.cars_washed
    longest_wait := st.max_wait_time
    average_wait :=
      if st.cars_washed > 0 then (st.total_wait_time : ℚ) / (st.cars_washed : ℚ)
      else 0 }

/-- Method `CarWashSimulator::run` (source lines 37-109): returns the result
record and the generator position after the call. -/
def run (s : Nat → Int) (random : Nat) (minutes : Int) :
    SimulationResult × Nat :=
  let st := runLoop s minutes (RunState.init random)
  (mkResult minutes st, st.random)

/-- The doubling loop of `run_all` (source lines 134-145).  The argument `hpos`
records that `time_duration` is positive, which holds from its initial value 30
on and is what makes the doubling progress. -/
def sweepLoop (s : Nat → Int) (max_minutes : Int) (resume : Bool)
    (time_duration : Int) (hpos : 0 < time_duration)
    (results : List SimulationResult) (random : Nat) :
    List SimulationResult × Nat :=
  if h : resume = true ∧ time_duration ≤ max_minutes then
    let r := run s random time_duration
    if h2 : time_duration ≤ Int.tdiv max_minutes 2 then
      sweepLoop s max_minutes resume (time_duration * 2) (by omega)
        (results ++ [r.1]) r.2
    else
      sweepLoop s max_minutes false time_duration hpos (results ++ [r.1]) r.2
  else (results, random)
termination_by (if resume = true then 1 else 0) + (max_minutes + 1 - time_duration).toNat
decreasing_by
  · simp only [h.1, if_true]
    have := h.2
    have : Int.tdiv max_minutes 2 ≤ max_minutes := by
      have : 0 ≤ max_minutes := by omega
      rw [Int.tdiv_eq_ediv this (by decide)]; omega
    omega
  · simp only [h.1, if_true]
    simp

/-- Method `CarWashSimulator::run_all` (source lines 115-153): returns the
vector `results` and the generator position after the call. -/
def run_all (s : Nat → Int) (random : Nat) (max_minutes : Int) :
    List SimulationResult × Nat :=
  -- results.clear()
  let results0 : List SimulationResult := []
  -- short simulations: a single run at max_minutes, resume := false
  let p1 : (List SimulationResult × Nat) × Bool :=
    if max_minutes < 30 then
      let r := run s random max_minutes
      ((results0 ++ [r.1], r.2), false)
    else ((results0, random), true)
  -- doubling loop from time_duration = 30
  let p2 := sweepLoop s max_minutes p1.2 30 (by decide) p1.1.1 p1.1.2
  -- closing run
  if max_minutes ≥ 30 ∧
      (p2.1 = [] ∨ (p2.1.getLast?.map (·.duration)).getD 0 < max_minutes) then
    let r := run s p2.2 max_minutes
    (p2.1 ++ [r.1], r.2)
  else p2

/-- A sequence of calls of `run` on one simulator object, at the given
durations: the generator position left by one call is the one the next call
starts from. -/
def run_seq (s : Nat → Int) (random : Nat) :
    List Int → List SimulationResult × Nat
  | [] => ([], random)
  | minutes :: rest =>
    let r := run s random minutes
    let rs := run_seq s r.2 rest
    (r.1 :: rs.1, rs.2)

/-- The local variables of `run` alone: the state with the generator position
masked. -/
def RunState.locals (st : RunState) : RunState :=
  { st with random := 0 }

/-- Number of cars pushed for one sample (source lines 55-62): one for sample
2, two for sample 3, none otherwise. -/
def arrivals (arrival_case : Int) : Nat :=
  if arrival_case = 2 then 1 else if arrival_case = 3 then 2 else 0

/-- Durations of a result sequence, in insertion order. -/
def durations (results : List SimulationResult) : List Int :=
  results.map (fun r => r.duration)

/-- Invariant of the loop of `run` at the loop head, for a call that started at
generator position `g`. -/
structure Inv (s : Nat → Int) (g : Nat) (minutes : Int) (st : RunState) : Prop where
  time_nonneg : 0 ≤ st.current_time
  random_eq : st.random = g + (min st.current_time minutes).toNat
  queue_lt : ∀ a ∈ st.car_queue, 0 ≤ a ∧ a < st.current_time
  queue_len : (st.car_queue.length : Int) ≤ st.current_time
  washed_nonneg : 0 ≤ st.cars_washed
  max_nonneg : 0 ≤ st.max_wait_time
  total_nonneg : 0 ≤ st.total_wait_time
  total_le : st.total_wait_time ≤ st.max_wait_time * st.cars_washed
  max_zero : st.cars_washed = 0 → st.max_wait_time = 0
  conserve : st.cars_washed + (st.car_queue.length : Int) =
    ((∑ i in Finset.range (st.random - g), arrivals (s (g + i)) : Nat) : Int)

/-- The same invariant between the arrival phase and the service phase of a
tick: timestamps in the queue are at most `current_time`. -/
structure Mid (s : Nat → Int) (g : Nat) (minutes : Int) (st : RunState) : Prop where
  time_nonneg : 0 ≤ st.current_time
  random_eq : st.random = g + (min (st.current_time + 1) minutes).toNat
  queue_le : ∀ a ∈ st.car_queue, 0 ≤ a ∧ a ≤ st.current_time
  queue_len : (st.car_queue.length : Int) ≤ st.current_time + 2
  queue_len_closed : ¬ st.current_time < minutes →
    (st.car_queue.length : Int) ≤ st.current_time
  washed_nonneg : 0 ≤ st.cars_washed
  max_nonneg : 0 ≤ st.max_wait_time
  total_nonneg : 0 ≤ st.total_wait_time
  total_le : st.total_wait_time ≤ st.max_wait_time * st.cars_washed
  max_zero : st.cars_washed = 0 → st.max_wait_time = 0
  conserve : st.cars_washed + (st.car_queue.length : Int) =
    ((∑ i in Finset.range (st.random - g), arrivals (s (g + i)) : Nat) : Int)

/-- Outcome of a call of `std::stoi`: the `int` it returns, or one of the two
exceptions it throws. -/
inductive StoiResult where
  | value (n : Int)
  | invalid_argument
  | out_of_range

/-- Data members of class `ArgumentParser` (source lines 244-245). -/
structure ArgumentParser where
  help : Bool
  max : Int

/-- Member initialisers of `ArgumentParser`: `help = false`, `max = 43200`. -/
def ArgumentParser.initial : ArgumentParser :=
  { help := false, max := 43200 }

/-- The loop of the constructor of `ArgumentParser` (source lines 194-224) on
the arguments `argv[i], argv[i+1], ...` still to be read.  After a successful
`stoi` the value is skipped (`i++` at line 214); when `stoi` throws, the
handler only resets `max` and the value is read as the next argument. -/
def parseArgs (stoi : String → StoiResult) :
    List String → ArgumentParser → ArgumentParser
  | [], p => p
  | arg :: rest, p =>
    if arg = "-h" then parseArgs stoi rest { p with help := true }
    else if arg = "-m" then
      match rest with
      | [] => p
      | v :: rest' =>
        match stoi v with
        | StoiResult.value n =>
          parseArgs stoi rest' { p with max := if n ≤ 0 then 43200 else n }
        | StoiResult.invalid_argument =>
          parseArgs stoi (v :: rest') { p with max := 43200 }
        | StoiResult.out_of_range =>
          parseArgs stoi (v :: rest') { p with max := 43200 }
    else parseArgs stoi rest p
termination_by args => args.length
decreasing_by all_goals simp_wf <;> omega

/-- Constructor `ArgumentParser(argc, argv)` followed by `max_minutes()`
(source lines 192-225 and 239-241): the loop starts at index 1, after the
program name. -/
def max_minutes (stoi : String → StoiResult) (argv : List String) : Int :=
  (parseArgs stoi argv.tail ArgumentParser.initial).max

/-- A result sequence and generator position are those of a sequence of `run`
calls on one engine started at position `g`, one call per result, each call
starting where the previous one stopped. -/
def Threaded (s : Nat → Int) (g : Nat) (p : List SimulationResult × Nat) : Prop :=
  p = run_seq s g (durations p.1)

/-- Timestamps pushed on the queue by the arrival phase of one tick (source
lines 55-62), in push order. -/
def pushed (s : Nat → Int) (minutes : Int) (st : RunState) : List Int :=
  if st.current_time < minutes then
    if s st.random = 2 then [st.current_time]
    else if s st.random = 3 then [st.current_time, st.current_time]
    else []
  else []

/-- Timestamp taken from the front of the queue by the service phase (source
lines 68-71), if any. -/
def popped (st : RunState) : List Int :=
  match st.car_queue with
  | [] => []
  | arrival_time :: _ => [arrival_time]

/-- Timestamps enqueued during `n` ticks from state `st`, in push order. -/
def enqueued (s : Nat → Int) (minutes : Int) : Nat → RunState → List Int
  | 0, _ => []
  | n + 1, st => pushed s minutes st ++ enqueued s minutes n (tick s minutes st)

/-- Timestamps dequeued during `n` ticks from state `st`, in service order. -/
def dequeued (s : Nat → Int) (minutes : Int) : Nat → RunState → List Int
  | 0, _ => []
  | n + 1, st =>
    popped (arrive s minutes st) ++ dequeued s minutes n (tick s minutes st)

/-- Wait bound for the cars in a queue whose head is served at time `t` as car
number `c` (counting from 0), the next one at time `t + 1` as car `c + 1`, and
so on: the car served as number `k` waits at most `(k + 1) / 2`, which is
`k / 2` rounded up. -/
def WaitOk : Int → Int → List Int → Prop
  | _, _, [] => True
  | t, c, arrival_time :: rest =>
    2 * (t - arrival_time) ≤ c + 1 ∧ WaitOk (t + 1) (c + 1) rest

/-- Bounds on the accumulators of `run` at the loop head. -/
structure Bounds (st : RunState) : Prop where
  len_le : (st.car_queue.length : Int) ≤ st.cars_washed
  waits : WaitOk st.current_time st.cars_washed st.car_queue
  max_le : 2 * st.max_wait_time ≤ st.cars_washed
  total_le : 4 * st.total_wait_time ≤ st.cars_washed * st.cars_washed

/-- Sum of the waits of the first `k` cars served when car number `i`
(counting from 0) waits `i - i / 2` minutes. -/
def waitSum : Nat → Int
  | 0 => 0
  | k + 1 => waitSum k + ((k : Int) - ((k / 2 : Nat) : Int))

/-- State of `run(m)` after `k` ticks on the stream that is constantly 3 (two
arrivals every minute of the open window): `k` cars washed, car number `i`
arrived at minute `i / 2`, cars `k, ..., 2 * min k m - 1` waiting. -/
def busyState (g m k : Nat) : RunState :=
  { car_queue :=
      (List.range' k (2 * min k m - k)).map (fun i => ((i / 2 : Nat) : Int))
    current_time := (k : Int)
    cars_washed := (k : Int)
    total_wait_time := waitSum k
    max_wait_time := ((k / 2 : Nat) : Int)
    random := g + min k m }

/-- Two's complement wrap-around of an integer to the range of a 32-bit
`int`, `-2^31 ≤ x < 2^31`. -/
def wrap32 (x : Int) : Int :=
  (x + 2147483648) % 4294967296 - 2147483648

/-- Service phase of one tick (source lines 66-86) with 32-bit `int`
arithmetic: every subtraction, addition and increment wraps modulo `2^32`. -/
def serve32 (st : RunState) : RunState :=
  match st.car_queue with
  | [] => st
  | arrival_time :: rest =>
    let wait_time := wrap32 (st.current_time - arrival_time)
    { st with
      car_queue := rest
      total_wait_time := wrap32 (st.total_wait_time + wait_time)
      cars_washed := wrap32 (st.cars_washed + 1)
      max_wait_time :=
        if wait_time > st.max_wait_time then wait_time else st.max_wait_time }

/-- One iteration of the loop body of `run` (source lines 47-89) with 32-bit
`int` arithmetic.  The arrival phase does no arithmetic. -/
def tick32 (s : Nat → Int) (minutes : Int) (st : RunState) : RunState :=
  let st2 := serve32 (arrive s minutes st)
  { st2 with current_time := wrap32 (st2.current_time + 1) }

/-- The loop of `run` with 32-bit `int` arithmetic, for at most `fuel`
evaluations of the loop condition: `none` when the fuel runs out before the
condition fails. -/
def runLoop32 (s : Nat → Int) (minutes : Int) : Nat → RunState → Option RunState
  | 0, _ => none
  | fuel + 1, st =>
    if running minutes st then runLoop32 s minutes fuel (tick32 s minutes st)
    else some st

/-- Method `run` with 32-bit `int` arithmetic and bounded fuel. -/
def run32 (fuel : Nat) (s : Nat → Int) (random : Nat) (minutes : Int) :
    Option (SimulationResult × Nat) :=
  (runLoop32 s minutes fuel (RunState.init random)).map
    (fun st => (mkResult minutes st, st.random))

/-- The state with `total_wait_time` wrapped to 32 bits. -/
def RunState.wrapTotal (st : RunState) : RunState :=
  { st with total_wait_time := wrap32 st.total_wait_time }

/-- Range of a 32-bit non-negative `int`. -/
def InRange32 (x : Int) : Prop := 0 ≤ x ∧ x ≤ 2147483647

/-! ## Elementary facts about one tick -/

theorem arrive_current_time (s : Nat → Int) (minutes : Int) (st : RunState) :
    (arrive s minutes st).current_time = st.current_time := by
  unfold arrive; split <;> rfl

theorem serve_current_time (st : RunState) :
    (serve st).current_time = st.current_time := by
  unfold serve; split <;> rfl

theorem tick_current_time (s : Nat → Int) (minutes : Int) (st : RunState) :
    (tick s minutes st).current_time = st.current_time + 1 := by
  simp [tick, serve_current_time, arrive_current_time]

theorem arrive_length_le (s : Nat → Int) (minutes : Int) (st : RunState) :
    (arrive s minutes st).car_queue.length ≤ st.car_queue.length + 2 := by
  unfold arrive
  split
  · dsimp only
    split
    · simp
    · split <;> simp
  · omega

theorem arrive_closed (s : Nat → Int) (minutes : Int) (st : RunState)
    (h : ¬ st.current_time < minutes) : arrive s minutes st = st := by
  unfold arrive; rw [if_neg h]

theorem arrive_length_ge (s : Nat → Int) (minutes : Int) (st : RunState) :
    st.car_queue.length ≤ (arrive s minutes st).car_queue.length := by
  unfold arrive
  split
  · dsimp only
    split
    · simp
    · split <;> simp
  · omega

theorem serve_length (st : RunState) :
    (serve st).car_queue.length = st.car_queue.length - 1 := by
  unfold serve; split <;> simp_all

theorem tick_car_queue (s : Nat → Int) (minutes : Int) (st : RunState) :
    (tick s minutes st).car_queue = (serve (arrive s minutes st)).car_queue := rfl

theorem tick_decreases (s : Nat → Int) (minutes : Int) (st : RunState)
    (h : running minutes st) :
    fuelOf minutes (tick s minutes st) < fuelOf minutes st := by
  unfold fuelOf
  rw [tick_current_time, tick_car_queue, serve_length]
  by_cases ho : st.current_time < minutes
  · have h1 := arrive_length_le s minutes st
    omega
  · rw [arrive_closed s minutes st ho]
    have hq : st.car_queue ≠ [] := by
      rcases h with h | h
      · exact absurd h ho
      · exact h
    have : 0 < st.car_queue.length := List.length_pos.mpr hq
    omega

/-! ## The loop of `run`: unfolding, invariant rule, iteration count -/

theorem runLoop_unfold (s : Nat → Int) (minutes : Int) (st : RunState) :
    runLoop s minutes st =
      if running minutes st then runLoop s minutes (tick s minutes st) else st := by
  rw [runLoop]

theorem runLoop_step (s : Nat → Int) (minutes : Int) (st : RunState)
    (h : running minutes st) :
    runLoop s minutes st = runLoop s minutes (tick s minutes st) := by
  rw [runLoop_unfold, if_pos h]

theorem runLoop_done (s : Nat → Int) (minutes : Int) (st : RunState)
    (h : ¬ running minutes st) : runLoop s minutes st = st := by
  rw [runLoop_unfold, if_neg h]

/-- Invariant rule for the loop of `run`: a property preserved by every loop
iteration holds on exit, where the loop condition is false. -/
theorem runLoop_invariant (s : Nat → Int) (minutes : Int) (P : RunState → Prop)
    (hstep : ∀ st, P st → running minutes st → P (tick s minutes st)) :
    ∀ st, P st →
      P (runLoop s minutes st) ∧ ¬ running minutes (runLoop s minutes st) := by
  suffices H : ∀ n st, fuelOf minutes st = n → P st →
      P (runLoop s minutes st) ∧ ¬ running minutes (runLoop s minutes st) from
    fun st => H _ st rfl
  intro n
  induction n using Nat.strong_induction_on with
  | _ n ih =>
    intro st h hP
    by_cases hr : running minutes st
    · rw [runLoop_step s minutes st hr]
      exact ih _ (h ▸ tick_decreases s minutes st hr) _ rfl (hstep st hP hr)
    · rw [runLoop_done s minutes st hr]
      exact ⟨hP, hr⟩

/-- The loop of `run` executes a definite number `n` of iterations: the loop
condition holds before each of them and fails after the last. -/
theorem runLoop_eq_iterate (s : Nat → Int) (minutes : Int) (st : RunState) :
    ∃ n : Nat, runLoop s minutes st = (tick s minutes)^[n] st ∧
      (∀ k, k < n → running minutes ((tick s minutes)^[k] st)) ∧
      ¬ running minutes ((tick s minutes)^[n] st) := by
  suffices H : ∀ m st, fuelOf minutes st = m →
      ∃ n : Nat, runLoop s minutes st = (tick s minutes)^[n] st ∧
        (∀ k, k < n → running minutes ((tick s minutes)^[k] st)) ∧
        ¬ running minutes ((tick s minutes)^[n] st) from H _ st rfl
  intro m
  induction m using Nat.strong_induction_on with
  | _ m ih =>
    intro st h
    by_cases hr : running minutes st
    · obtain ⟨n, h1, h2, h3⟩ :=
        ih _ (h ▸ tick_decreases s minutes st hr) (tick s minutes st) rfl
      refine ⟨n + 1, ?_, ?_, ?_⟩
      · rw [runLoop_step s minutes st hr, h1, Function.iterate_succ_apply]
      · intro k hk
        cases k with
        | zero => exact hr
        | succ k =>
          rw [Function.iterate_succ_apply]
          exact h2 k (by omega)
      · rw [Function.iterate_succ_apply]
        exact h3
    · exact ⟨0, runLoop_done s minutes st hr, fun k hk => absurd hk (by omega), hr⟩

/-! ## The invariant is established and preserved -/

theorem Inv.init (s : Nat → Int) (g : Nat) (minutes : Int) :
    Inv s g minutes (RunState.init g) := by
  constructor <;> simp [RunState.init]

/-- Effect of the arrival phase while the wash is open: `arrivals` copies of
the current time are appended and one sample is consumed. -/
theorem arrive_open (s : Nat → Int) (minutes : Int) (st : RunState)
    (h : st.current_time < minutes) :
    arrive s minutes st =
      { st with
        car_queue :=
          st.car_queue ++ List.replicate (arrivals (s st.random)) st.current_time
        random := st.random + 1 } := by
  unfold arrive arrivals
  rw [if_pos h]
  dsimp only
  by_cases h2 : s st.random = 2
  · simp [h2]
  · by_cases h3 : s st.random = 3
    · simp [h3, List.replicate]
    · simp [h2, h3]

theorem Inv.toMid {s : Nat → Int} {g : Nat} {minutes : Int} {st : RunState}
    (h : Inv s g minutes st) : Mid s g minutes (arrive s minutes st) := by
  have ht := h.time_nonneg
  by_cases ho : st.current_time < minutes
  · rw [arrive_open s minutes st ho]
    have hr : st.random = g + st.current_time.toNat := by
      rw [h.random_eq, min_eq_left (le_of_lt ho)]
    have ha : arrivals (s st.random) ≤ 2 := by
      unfold arrivals; split
      · omega
      · split <;> omega
    refine ⟨ht, ?_, ?_, ?_, ?_, h.washed_nonneg, h.max_nonneg, h.total_nonneg,
      h.total_le, h.max_zero, ?_⟩
    · show st.random + 1 = g + (min (st.current_time + 1) minutes).toNat
      rw [min_eq_left (by omega), hr]; omega
    · intro a ha'
      simp only [List.mem_append, List.mem_replicate] at ha'
      show 0 ≤ a ∧ a ≤ st.current_time
      rcases ha' with ha' | ha'
      · have := h.queue_lt a ha'; omega
      · omega
    · have := h.queue_len
      simp only [List.length_append, List.length_replicate]
      push_cast; omega
    · intro hc; exact absurd ho hc
    · simp only [List.length_append, List.length_replicate]
      have hk : st.random + 1 - g = (st.random - g) + 1 := by omega
      have hg : g + (st.random - g) = st.random := by omega
      rw [hk, Finset.sum_range_succ, hg]
      have := h.conserve
      push_cast at this ⊢
      omega
  · rw [arrive_closed s minutes st ho]
    have hle : minutes ≤ st.current_time := not_lt.mp ho
    refine ⟨ht, ?_, ?_, ?_, fun _ => h.queue_len, h.washed_nonneg, h.max_nonneg,
      h.total_nonneg, h.total_le, h.max_zero, h.conserve⟩
    · rw [h.random_eq, min_eq_right hle, min_eq_right (by omega)]
    · intro a ha'
      have := h.queue_lt a ha'; omega
    · have := h.queue_len; omega

theorem Mid.toInv {s : Nat → Int} {g : Nat} {minutes : Int} {st : RunState}
    (h : Mid s g minutes st) :
    Inv s g minutes
      { serve st with current_time := (serve st).current_time + 1 } := by
  obtain ⟨q, t, c, tw, mw, r⟩ := st
  obtain ⟨h1, h2, h3, h4, h4c, h5, h6, h7, h8, h9, h10⟩ := h
  dsimp only at h1 h2 h3 h4 h4c h5 h6 h7 h8 h9 h10
  cases q with
  | nil =>
    refine ⟨?_, h2, ?_, ?_, h5, h6, h7, h8, h9, h10⟩
    · show 0 ≤ t + 1
      omega
    · intro a ha; exact absurd ha (List.not_mem_nil a)
    · show ((0 : Nat) : Int) ≤ t + 1
      omega
  | cons a rest =>
    have ha := h3 a (List.mem_cons_self a rest)
    have hlen : ((a :: rest).length : Int) = (rest.length : Int) + 1 := by
      simp
    rw [hlen] at h4 h10 h4c
    refine ⟨?_, h2, ?_, ?_, ?_, ?_, ?_, ?_, ?_, ?_⟩
    · show 0 ≤ t + 1
      omega
    · intro b hb
      show 0 ≤ b ∧ b < t + 1
      have := h3 b (List.mem_cons_of_mem a hb)
      omega
    · show (rest.length : Int) ≤ t + 1
      omega
    · show 0 ≤ c + 1
      omega
    · show 0 ≤ (if t - a > mw then t - a else mw)
      split <;> omega
    · show 0 ≤ tw + (t - a)
      omega
    · show tw + (t - a) ≤ (if t - a > mw then t - a else mw) * (c + 1)
      split
      · rename_i hgt
        nlinarith [mul_nonneg (show 0 ≤ t - a - mw by omega) h5]
      · rename_i hgt
        have : t - a ≤ mw := not_lt.mp hgt
        nlinarith
    · intro hc
      exfalso
      have hc' : c + 1 = 0 := hc
      omega
    · have e : c + 1 + (rest.length : Int) = c + ((rest.length : Int) + 1) := by
        ring
      exact e.trans h10

theorem Inv.step {s : Nat → Int} {g : Nat} {minutes : Int} {st : RunState}
    (h : Inv s g minutes st) : Inv s g minutes (tick s minutes st) :=
  h.toMid.toInv

theorem Inv.iterate {s : Nat → Int} {g : Nat} {minutes : Int} {st : RunState}
    (h : Inv s g minutes st) (n : Nat) :
    Inv s g minutes ((tick s minutes)^[n] st) := by
  induction n with
  | zero => exact h
  | succ n ih =>
    rw [Function.iterate_succ_apply']
    exact ih.step

/-- The invariant holds on exit from the loop of `run`, where moreover the
closing time has passed and the queue is empty. -/
theorem runLoop_exit (s : Nat → Int) (g : Nat) (minutes : Int) :
    Inv s g minutes (runLoop s minutes (RunState.init g)) ∧
      minutes ≤ (runLoop s minutes (RunState.init g)).current_time ∧
      (runLoop s minutes (RunState.init g)).car_queue = [] := by
  have h := runLoop_invariant s minutes (Inv s g minutes)
    (fun st hst _ => hst.step) (RunState.init g) (Inv.init s g minutes)
  refine ⟨h.1, ?_, ?_⟩
  · by_contra hc
    exact h.2 (Or.inl (not_le.mp hc))
  · by_contra hc
    exact h.2 (Or.inr hc)

/-- Generator position after `run`: one sample per minute of the open window. -/
theorem run_random (s : Nat → Int) (g : Nat) (minutes : Int) :
    (run s g minutes).2 = g + minutes.toNat := by
  obtain ⟨h, hm, _⟩ := runLoop_exit s g minutes
  show (runLoop s minutes (RunState.init g)).random = _
  rw [h.random_eq, min_eq_right hm]

/-- Evaluation of `run` on the stream that is constantly 2, for one minute:
one car arrives at minute 0 and is washed at once. -/
theorem run_const2_one :
    runLoop (fun _ => 2) 1 (RunState.init 0) =
      { car_queue := [], current_time := 1, cars_washed := 1,
        total_wait_time := 0, max_wait_time := 0, random := 1 } := by
  rw [runLoop_step _ _ _ (by decide), runLoop_done _ _ _ (by decide)]
  decide

/-- Evaluation of `run` on the stream that is constantly 3, for one minute:
two cars arrive at minute 0, the second one is washed at minute 1, after
closing, so the loop ends with `current_time = 2`. -/
theorem run_const3_one :
    runLoop (fun _ => 3) 1 (RunState.init 0) =
      { car_queue := [], current_time := 2, cars_washed := 2,
        total_wait_time := 1, max_wait_time := 1, random := 1 } := by
  rw [runLoop_step _ _ _ (by decide), runLoop_step _ _ _ (by decide),
    runLoop_done _ _ _ (by decide)]
  decide

/-- Evaluation of `run` on the stream that is constantly 0, for two minutes:
nothing arrives and nothing is washed. -/
theorem run_const0_two :
    runLoop (fun _ => 0) 2 (RunState.init 0) =
      { car_queue := [], current_time := 2, cars_washed := 0,
        total_wait_time := 0, max_wait_time := 0, random := 2 } := by
  rw [runLoop_step _ _ _ (by decide), runLoop_step _ _ _ (by decide),
    runLoop_done _ _ _ (by decide)]
  decide

/-- The final `current_time` of `run` can exceed the requested duration: on the
stream that is constantly 3, `run(1)` ends with `current_time = 2`. -/
theorem run_final_time_may_exceed :
    (1 : Int) < (runLoop (fun _ => 3) 1 (RunState.init 0)).current_time := by
  rw [run_const3_one]; decide

/-! ## Properties of the result of `run` -/

/-- C3: whenever `run(minutes).total_cars > 0`, the average wait, which is the
exact quotient `total_wait_time / cars_washed`, is at most the longest wait;
equivalently `total_wait_time ≤ longest_wait * total_cars`. -/
theorem run_average_le_longest (s : Nat → Int) (g : Nat) (minutes : Int)
    (h : 0 < (run s g minutes).1.total_cars) :
    (run s g minutes).1.average_wait ≤ ((run s g minutes).1.longest_wait : ℚ) ∧
      (run s g minutes).1.average_wait =
        ((runLoop s minutes (RunState.init g)).total_wait_time : ℚ) /
          ((run s g minutes).1.total_cars : ℚ) ∧
      (runLoop s minutes (RunState.init g)).total_wait_time ≤
        (run s g minutes).1.longest_wait * (run s g minutes).1.total_cars := by
  have hinv := (runLoop_exit s g minutes).1
  have hle := hinv.total_le
  have h' : 0 < (runLoop s minutes (RunState.init g)).cars_washed := h
  have havg : (run s g minutes).1.average_wait =
      ((runLoop s minutes (RunState.init g)).total_wait_time : ℚ) /
        ((runLoop s minutes (RunState.init g)).cars_washed : ℚ) := by
    show (if (runLoop s minutes (RunState.init g)).cars_washed > 0 then _ else _) = _
    rw [if_pos h']
  refine ⟨?_, havg, hle⟩
  rw [havg]
  have hpos : (0 : ℚ) < ((runLoop s minutes (RunState.init g)).cars_washed : ℚ) := by
    exact_mod_cast h'
  rw [div_le_iff₀ hpos]
  show ((runLoop s minutes (RunState.init g)).total_wait_time : ℚ) ≤
    ((runLoop s minutes (RunState.init g)).max_wait_time : ℚ) *
      ((runLoop s minutes (RunState.init g)).cars_washed : ℚ)
  exact_mod_cast hle

/-- Witness for C3: on the stream that is constantly 3, `run(1)` washes two
cars. -/
theorem run_average_le_longest_witness :
    0 < (run (fun _ => 3) 0 1).1.total_cars ∧
      (run (fun _ => 3) 0 1).1.average_wait ≤
        ((run (fun _ => 3) 0 1).1.longest_wait : ℚ) :=
  have h : 0 < (run (fun _ => 3) 0 1).1.total_cars := by
    show 0 < (runLoop (fun _ => 3) 1 (RunState.init 0)).cars_washed
    rw [run_const3_one]; decide
  ⟨h, (run_average_le_longest (fun _ => 3) 0 1 h).1⟩

/-- C4: the result of `run(minutes)` has `total_cars ≥ 0`, `longest_wait ≥ 0`
and `average_wait ≥ 0`; and in every tick, after the arrival phase, every
timestamp in the queue is at most `current_time`, so the wait time
`current_time - arrival_time` computed for the car at the front is
non-negative. -/
theorem run_result_nonneg (s : Nat → Int) (g : Nat) (minutes : Int) :
    0 ≤ (run s g minutes).1.total_cars ∧
      0 ≤ (run s g minutes).1.longest_wait ∧
      0 ≤ (run s g minutes).1.average_wait ∧
      (∀ n : Nat, ∀ a ∈
          (arrive s minutes ((tick s minutes)^[n] (RunState.init g))).car_queue,
        a ≤ (arrive s minutes ((tick s minutes)^[n] (RunState.init g))).current_time) ∧
      (∀ (n : Nat) (arrival_time : Int) (rest : List Int),
        (arrive s minutes ((tick s minutes)^[n] (RunState.init g))).car_queue =
          arrival_time :: rest →
        0 ≤ (arrive s minutes ((tick s minutes)^[n] (RunState.init g))).current_time -
          arrival_time) := by
  have hinv := (runLoop_exit s g minutes).1
  have hmid : ∀ n : Nat, Mid s g minutes
      (arrive s minutes ((tick s minutes)^[n] (RunState.init g))) :=
    fun n => ((Inv.init s g minutes).iterate n).toMid
  refine ⟨hinv.washed_nonneg, hinv.max_nonneg, ?_, ?_, ?_⟩
  · show (0 : ℚ) ≤ (if (runLoop s minutes (RunState.init g)).cars_washed > 0 then _ else _)
    split
    · apply div_nonneg
      · exact_mod_cast hinv.total_nonneg
      · exact_mod_cast hinv.washed_nonneg
    · exact le_refl _
  · intro n a ha
    exact ((hmid n).queue_le a ha).2
  · intro n a rest hq
    have := ((hmid n).queue_le a (hq ▸ List.mem_cons_self a rest)).2
    omega

/-- C5: if `run(minutes).total_cars = 0` then `average_wait = 0` and
`longest_wait = 0`. -/
theorem run_no_cars (s : Nat → Int) (g : Nat) (minutes : Int)
    (h : (run s g minutes).1.total_cars = 0) :
    (run s g minutes).1.average_wait = 0 ∧ (run s g minutes).1.longest_wait = 0 := by
  have hinv := (runLoop_exit s g minutes).1
  have h' : (runLoop s minutes (RunState.init g)).cars_washed = 0 := h
  refine ⟨?_, hinv.max_zero h'⟩
  show (if (runLoop s minutes (RunState.init g)).cars_washed > 0 then _ else _) = (0 : ℚ)
  rw [if_neg (by omega)]

/-- Witness for C5: on the stream that is constantly 0, `run(2)` washes no
car. -/
theorem run_no_cars_witness :
    (run (fun _ => 0) 0 2).1.total_cars = 0 ∧
      (run (fun _ => 0) 0 2).1.average_wait = 0 ∧
      (run (fun _ => 0) 0 2).1.longest_wait = 0 :=
  have h : (run (fun _ => 0) 0 2).1.total_cars = 0 := by
    show (runLoop (fun _ => 0) 2 (RunState.init 0)).cars_washed = 0
    rw [run_const0_two]
  ⟨h, run_no_cars (fun _ => 0) 0 2 h⟩

/-- C6: `run(minutes).duration` is the requested `minutes`, whatever the final
value of `current_time`, which is at least `minutes` (and at least 0) on
exit. -/
theorem run_duration (s : Nat → Int) (g : Nat) (minutes : Int) :
    (run s g minutes).1.duration = minutes ∧
      minutes ≤ (runLoop s minutes (RunState.init g)).current_time ∧
      0 ≤ (runLoop s minutes (RunState.init g)).current_time :=
  ⟨rfl, (runLoop_exit s g minutes).2.1, (runLoop_exit s g minutes).1.time_nonneg⟩

/-! ## The doubling loop of `run_all` -/

theorem le_tdiv_two_iff (max_minutes time_duration : Int) (h : 0 ≤ max_minutes) :
    time_duration ≤ Int.tdiv max_minutes 2 ↔ 2 * time_duration ≤ max_minutes := by
  rw [Int.tdiv_eq_ediv h (by decide)]; omega

theorem sweepLoop_stop (s : Nat → Int) (max_minutes : Int) (resume : Bool)
    (time_duration : Int) (hpos : 0 < time_duration)
    (results : List SimulationResult) (random : Nat)
    (h : ¬ (resume = true ∧ time_duration ≤ max_minutes)) :
    sweepLoop s max_minutes resume time_duration hpos results random =
      (results, random) := by
  rw [sweepLoop, dif_neg h]

theorem sweepLoop_double (s : Nat → Int) (max_minutes : Int)
    (time_duration : Int) (hpos : 0 < time_duration)
    (results : List SimulationResult) (random : Nat)
    (h1 : time_duration ≤ max_minutes) (h2 : 2 * time_duration ≤ max_minutes) :
    sweepLoop s max_minutes true time_duration hpos results random =
      sweepLoop s max_minutes true (time_duration * 2) (by omega)
        (results ++ [(run s random time_duration).1])
        (run s random time_duration).2 := by
  rw [sweepLoop, dif_pos ⟨rfl, h1⟩]
  dsimp only
  rw [dif_pos ((le_tdiv_two_iff max_minutes time_duration (by omega)).mpr h2)]

theorem sweepLoop_last (s : Nat → Int) (max_minutes : Int)
    (time_duration : Int) (hpos : 0 < time_duration)
    (results : List SimulationResult) (random : Nat)
    (h1 : time_duration ≤ max_minutes) (h2 : max_minutes < 2 * time_duration) :
    sweepLoop s max_minutes true time_duration hpos results random =
      (results ++ [(run s random time_duration).1],
        (run s random time_duration).2) := by
  rw [sweepLoop, dif_pos ⟨rfl, h1⟩]
  dsimp only
  rw [dif_neg (fun hc =>
    absurd ((le_tdiv_two_iff max_minutes time_duration (by omega)).mp hc) (by omega))]
  exact sweepLoop_stop s max_minutes false time_duration hpos _ _ (by simp)

theorem durations_append (xs ys : List SimulationResult) :
    durations (xs ++ ys) = durations xs ++ durations ys := by
  simp [durations]

/-- Durations appended by the doubling loop started at `time_duration`:
`time_duration * 2^k` for `k = 0, ..., K`, where `K` is fixed by
`time_duration * 2^K ≤ max_minutes < time_duration * 2^(K+1)`. -/
theorem sweepLoop_durations (s : Nat → Int) (max_minutes : Int) :
    ∀ (n : Nat) (time_duration : Int) (hpos : 0 < time_duration)
      (results : List SimulationResult) (random : Nat),
      (max_minutes - time_duration).toNat = n → time_duration ≤ max_minutes →
      ∃ K : Nat, time_duration * 2 ^ K ≤ max_minutes ∧
        max_minutes < time_duration * 2 ^ (K + 1) ∧
        durations (sweepLoop s max_minutes true time_duration hpos results random).1 =
          durations results ++
            (List.range (K + 1)).map (fun k => time_duration * 2 ^ k) := by
  intro n
  induction n using Nat.strong_induction_on with
  | _ n ih =>
    intro td hpos results random hn hle
    by_cases h2 : 2 * td ≤ max_minutes
    · obtain ⟨K, hK1, hK2, hK3⟩ :=
        ih (max_minutes - td * 2).toNat (by omega) (td * 2) (by omega)
          (results ++ [(run s random td).1]) (run s random td).2 rfl (by omega)
      refine ⟨K + 1, ?_, ?_, ?_⟩
      · rw [pow_succ']; rw [← mul_assoc]; exact hK1
      · rw [pow_succ']; rw [← mul_assoc]; exact hK2
      · rw [sweepLoop_double s max_minutes td hpos results random hle h2, hK3,
          durations_append, List.range_succ_eq_map (K + 1), List.map_cons,
          List.map_map, List.append_assoc]
        congr 1
        show [td] ++ _ = td * 2 ^ 0 :: _
        rw [pow_zero, mul_one, List.singleton_append]
        congr 1
        apply List.map_congr_left
        intro k _
        show td * 2 * 2 ^ k = td * 2 ^ (k + 1)
        rw [pow_succ']; ring
    · refine ⟨0, by omega, by omega, ?_⟩
      rw [sweepLoop_last s max_minutes td hpos results random hle (by omega),
        durations_append]
      congr 1
      show [td] = List.map (fun k => td * 2 ^ k) (List.range 1)
      simp [List.range_succ]

/-- The doubling loop only appends to `results`. -/
theorem sweepLoop_ne_nil (s : Nat → Int) (max_minutes : Int)
    (time_duration : Int) (hpos : 0 < time_duration)
    (results : List SimulationResult) (random : Nat)
    (hle : time_duration ≤ max_minutes) :
    (sweepLoop s max_minutes true time_duration hpos results random).1 ≠ [] := by
  obtain ⟨K, _, _, h⟩ :=
    sweepLoop_durations s max_minutes _ time_duration hpos results random rfl hle
  intro hc
  rw [hc, List.range_succ] at h
  simp [durations] at h

/-! ## `run_all` -/

/-- Below the threshold 30, `run_all` is one call of `run`. -/
theorem run_all_short (s : Nat → Int) (g : Nat) (max_minutes : Int)
    (h : max_minutes < 30) :
    run_all s g max_minutes = ([(run s g max_minutes).1], (run s g max_minutes).2) := by
  unfold run_all
  simp only [if_pos h, List.nil_append]
  rw [sweepLoop_stop s max_minutes false 30 (by decide) _ _ (by simp)]
  rw [if_neg (by intro hc; have := hc.1; omega)]

/-- The duration read by `results.back().duration` when the durations of
`results` end in `d`. -/
theorem back_duration (results : List SimulationResult) (ds : List Int) (d : Int)
    (h : durations results = ds ++ [d]) :
    (results.getLast?.map (·.duration)).getD 0 = d := by
  have : (durations results).getLast? = some d := by
    rw [h, List.getLast?_concat]
  unfold durations at this
  rw [List.getLast?_map] at this
  rw [this]; rfl

/-- From the threshold 30 on, `run_all` is the doubling loop started at 30 with
no results, followed by the closing run when the last duration is below
`max_minutes`. -/
theorem run_all_long (s : Nat → Int) (g : Nat) (max_minutes : Int)
    (h : 30 ≤ max_minutes) :
    run_all s g max_minutes =
      if ((sweepLoop s max_minutes true 30 (by decide) [] g).1.getLast?.map
          (·.duration)).getD 0 < max_minutes then
        ((sweepLoop s max_minutes true 30 (by decide) [] g).1 ++
            [(run s (sweepLoop s max_minutes true 30 (by decide) [] g).2 max_minutes).1],
          (run s (sweepLoop s max_minutes true 30 (by decide) [] g).2 max_minutes).2)
      else sweepLoop s max_minutes true 30 (by decide) [] g := by
  unfold run_all
  have hne := sweepLoop_ne_nil s max_minutes 30 (by decide) [] g h
  simp only [if_neg (not_lt.mpr h), ge_iff_le, h, true_and, hne, false_or]

/-- Durations of the results of `run_all` from the threshold 30 on. -/
theorem run_all_long_durations (s : Nat → Int) (g : Nat) (max_minutes : Int)
    (h : 30 ≤ max_minutes) :
    ∃ K : Nat, 30 * 2 ^ K ≤ max_minutes ∧ max_minutes < 30 * 2 ^ (K + 1) ∧
      durations (run_all s g max_minutes).1 =
        (List.range (K + 1)).map (fun k => (30 : Int) * 2 ^ k) ++
          (if 30 * 2 ^ K < max_minutes then [max_minutes] else []) := by
  obtain ⟨K, h1, h2, h3⟩ :=
    sweepLoop_durations s max_minutes _ 30 (by decide) [] g rfl h
  refine ⟨K, h1, h2, ?_⟩
  have h3' : durations (sweepLoop s max_minutes true 30 (by decide) [] g).1 =
      (List.range K).map (fun k => (30 : Int) * 2 ^ k) ++ [30 * 2 ^ K] := by
    rw [h3, List.range_succ]; simp [durations]
  have hb := back_duration _ _ _ h3'
  rw [run_all_long s g max_minutes h, hb]
  by_cases hlt : 30 * 2 ^ K < max_minutes
  · rw [if_pos hlt, if_pos hlt]
    show durations (_ ++ [_]) = _
    rw [durations_append, h3]
    simp [durations, mkResult, run]
  · rw [if_neg hlt, if_neg hlt, h3]
    simp [durations]

theorem pow_two_lt_of_lt (a b : Nat) (h : a < b) : (30 : Int) * 2 ^ a < 30 * 2 ^ b := by
  have : (2 : Int) ^ a < 2 ^ b := pow_lt_pow_right₀ (by norm_num) h
  omega

theorem pow_two_le_of_le (a b : Nat) (h : a ≤ b) : (30 : Int) * 2 ^ a ≤ 30 * 2 ^ b := by
  have : (2 : Int) ^ a ≤ 2 ^ b := pow_le_pow_right₀ (by norm_num) h
  omega

/-- C1: for every `max_minutes ≥ 30` and every sample stream, the durations of
the results of `run_all(max_minutes)` are `30*2^0, ..., 30*2^K` in that order,
where `K` is the largest natural number with `30*2^K ≤ max_minutes`, followed
by one further entry `max_minutes` exactly when `30*2^K < max_minutes`.  In
particular `run_all(100)` yields `[30, 60, 100]` and `run_all(30)` yields
`[30]`. -/
theorem run_all_durations (s : Nat → Int) (g : Nat) :
    (∀ max_minutes : Int, 30 ≤ max_minutes →
      ∃ K : Nat,
        (30 * 2 ^ K ≤ max_minutes ∧
          ∀ j : Nat, (30 : Int) * 2 ^ j ≤ max_minutes → j ≤ K) ∧
        durations (run_all s g max_minutes).1 =
          (List.range (K + 1)).map (fun k => (30 : Int) * 2 ^ k) ++
            (if 30 * 2 ^ K < max_minutes then [max_minutes] else [])) ∧
      durations (run_all s g 100).1 = [30, 60, 100] ∧
      durations (run_all s g 30).1 = [30] := by
  refine ⟨?_, ?_, ?_⟩
  · intro max_minutes h
    obtain ⟨K, h1, h2, h3⟩ := run_all_long_durations s g max_minutes h
    refine ⟨K, ⟨h1, ?_⟩, h3⟩
    intro j hj
    by_contra hc
    have := pow_two_le_of_le (K + 1) j (by omega)
    omega
  · rw [run_all_long s g 100 (by decide),
      sweepLoop_double s 100 30 (by decide) [] g (by decide) (by decide),
      sweepLoop_last s 100 (30 * 2) (by decide) _ _ (by decide) (by decide)]
    simp [durations, run, mkResult]
  · rw [run_all_long s g 30 (by decide),
      sweepLoop_last s 30 30 (by decide) [] g (by decide) (by decide)]
    simp [durations, run, mkResult]

/-- Witness for C1 at `max_minutes = 100`. -/
theorem run_all_durations_witness :
    (30 : Int) ≤ 100 ∧
      ∃ K : Nat,
        (30 * 2 ^ K ≤ (100 : Int) ∧
          ∀ j : Nat, (30 : Int) * 2 ^ j ≤ 100 → j ≤ K) ∧
        durations (run_all (fun _ => 3) 0 100).1 =
          (List.range (K + 1)).map (fun k => (30 : Int) * 2 ^ k) ++
            (if 30 * 2 ^ K < (100 : Int) then [100] else []) :=
  ⟨by decide, (run_all_durations (fun _ => 3) 0).1 100 (by decide)⟩

/-- C7: for every `max_minutes < 30`, `run_all(max_minutes)` is exactly one
call of `run`, at `max_minutes`, on the generator as `run_all` received it: the
result sequence is that single result, of duration `max_minutes`, and the
generator is left where that one call left it. -/
theorem run_all_below_threshold (s : Nat → Int) (g : Nat) (max_minutes : Int)
    (h : max_minutes < 30) :
    run_all s g max_minutes =
        ([(run s g max_minutes).1], (run s g max_minutes).2) ∧
      (run_all s g max_minutes).1.length = 1 ∧
      durations (run_all s g max_minutes).1 = [max_minutes] := by
  rw [run_all_short s g max_minutes h]
  exact ⟨rfl, rfl, rfl⟩

/-- Witness for C7 at `max_minutes = 20`. -/
theorem run_all_below_threshold_witness :
    (20 : Int) < 30 ∧ (run_all (fun _ => 3) 0 20).1.length = 1 ∧
      durations (run_all (fun _ => 3) 0 20).1 = [20] :=
  ⟨by decide, (run_all_below_threshold (fun _ => 3) 0 20 (by decide)).2⟩

/-- C8: for every `max_minutes`, in particular every positive one, the result
sequence of `run_all(max_minutes)` is non-empty, its durations are strictly
increasing in insertion order (hence without repetition), and its last
duration is `max_minutes`. -/
theorem run_all_increasing (s : Nat → Int) (g : Nat) (max_minutes : Int) :
    (run_all s g max_minutes).1 ≠ [] ∧
      (durations (run_all s g max_minutes).1).Pairwise (· < ·) ∧
      (durations (run_all s g max_minutes).1).Nodup ∧
      (durations (run_all s g max_minutes).1).getLast? = some max_minutes := by
  have key : durations (run_all s g max_minutes).1 ≠ [] ∧
      (durations (run_all s g max_minutes).1).Pairwise (· < ·) ∧
      (durations (run_all s g max_minutes).1).getLast? = some max_minutes := by
    by_cases hs : max_minutes < 30
    · rw [run_all_short s g max_minutes hs]
      show durations [_] ≠ [] ∧ (durations [_]).Pairwise (· < ·) ∧
        (durations [_]).getLast? = some max_minutes
      simp [durations, run, mkResult]
    · obtain ⟨K, h1, h2, h3⟩ := run_all_long_durations s g max_minutes (by omega)
      rw [h3]
      refine ⟨by simp [List.range_succ], ?_, ?_⟩
      · rw [List.pairwise_append]
        refine ⟨?_, ?_, ?_⟩
        · rw [List.pairwise_map]
          exact (List.pairwise_lt_range (K + 1)).imp
            (fun {a b} hab => pow_two_lt_of_lt a b hab)
        · split <;> simp
        · intro a ha b hb
          rw [List.mem_map] at ha
          obtain ⟨k, hk, rfl⟩ := ha
          rw [List.mem_range] at hk
          have := pow_two_le_of_le k K (by omega)
          split at hb
          · rw [List.mem_singleton] at hb
            omega
          · exact absurd hb (List.not_mem_nil b)
      · by_cases hlt : 30 * 2 ^ K < max_minutes
        · rw [if_pos hlt, List.getLast?_concat]
        · rw [if_neg hlt, List.append_nil, List.range_succ, List.map_append,
            List.map_singleton, List.getLast?_concat]
          congr 1
          omega
  refine ⟨?_, key.2.1, key.2.1.nodup, key.2.2⟩
  intro hc
  apply key.1
  rw [hc]; rfl

/-! ## Number of ticks executed by `run` -/

theorem iterate_current_time (s : Nat → Int) (minutes : Int) (st : RunState)
    (k : Nat) :
    ((tick s minutes)^[k] st).current_time = st.current_time + k := by
  induction k with
  | zero => simp
  | succ k ih =>
    rw [Function.iterate_succ_apply', tick_current_time, ih]
    push_cast; ring

/-- The loop of `run` executes exactly `k` iterations when the loop condition
holds before each of the first `k` iterations and fails after them. -/
theorem runLoop_iterate_of (s : Nat → Int) (minutes : Int) :
    ∀ (k : Nat) (st : RunState),
      (∀ j, j < k → running minutes ((tick s minutes)^[j] st)) →
      ¬ running minutes ((tick s minutes)^[k] st) →
      runLoop s minutes st = (tick s minutes)^[k] st := by
  intro k
  induction k with
  | zero =>
    intro st _ hn
    exact runLoop_done s minutes st hn
  | succ k ih =>
    intro st hr hn
    rw [runLoop_step s minutes st (hr 0 (by omega)), Function.iterate_succ_apply]
    apply ih
    · intro j hj
      have := hr (j + 1) (by omega)
      rwa [Function.iterate_succ_apply] at this
    · rwa [Function.iterate_succ_apply] at hn

/-- After closing time each tick removes one car from the queue, if any. -/
theorem closed_iterate_length (s : Nat → Int) (minutes : Int) :
    ∀ (j : Nat) (st : RunState), ¬ st.current_time < minutes →
      ((tick s minutes)^[j] st).car_queue.length = st.car_queue.length - j := by
  intro j
  induction j with
  | zero => intro st _; simp
  | succ j ih =>
    intro st hc
    rw [Function.iterate_succ_apply,
      ih (tick s minutes st) (by rw [tick_current_time]; omega),
      tick_car_queue, serve_length, arrive_closed s minutes st hc]
    omega

/-- Number of iterations of the loop of `run`: the `minutes` ticks of the open
window plus one tick per car waiting at closing time. -/
theorem runLoop_count (s : Nat → Int) (g : Nat) (minutes : Int) :
    (∀ k, k < minutes.toNat +
          ((tick s minutes)^[minutes.toNat] (RunState.init g)).car_queue.length →
        running minutes ((tick s minutes)^[k] (RunState.init g))) ∧
      ¬ running minutes
        ((tick s minutes)^[minutes.toNat +
          ((tick s minutes)^[minutes.toNat] (RunState.init g)).car_queue.length]
          (RunState.init g)) := by
  have hct : ∀ k : Nat, ((tick s minutes)^[k] (RunState.init g)).current_time = k := by
    intro k
    rw [iterate_current_time]; simp [RunState.init]
  have hclosed : ¬ ((tick s minutes)^[minutes.toNat] (RunState.init g)).current_time <
      minutes := by
    rw [hct]; omega
  constructor
  · intro k hk
    by_cases hkm : k < minutes.toNat
    · left
      rw [hct]; omega
    · right
      obtain ⟨j, rfl⟩ : ∃ j, k = j + minutes.toNat := ⟨k - minutes.toNat, by omega⟩
      intro hq
      have := closed_iterate_length s minutes j _ hclosed
      rw [← Function.iterate_add_apply, hq] at this
      simp only [List.length_nil] at this
      omega
  · intro hr
    rcases hr with hr | hr
    · rw [hct] at hr; omega
    · apply hr
      have := closed_iterate_length s minutes
        ((tick s minutes)^[minutes.toNat] (RunState.init g)).car_queue.length _ hclosed
      rw [← Function.iterate_add_apply, Nat.sub_self] at this
      rw [Nat.add_comm]
      exact List.length_eq_zero.mp this

theorem running_locals (minutes : Int) (st st' : RunState)
    (h : st.locals = st'.locals) : running minutes st ↔ running minutes st' := by
  obtain ⟨q, t, c, tw, mw, r⟩ := st
  obtain ⟨q', t', c', tw', mw', r'⟩ := st'
  simp only [RunState.locals, RunState.mk.injEq] at h
  obtain ⟨rfl, rfl, rfl, rfl, rfl, _⟩ := h
  rfl

theorem mkResult_locals (minutes : Int) (st st' : RunState)
    (h : st.locals = st'.locals) : mkResult minutes st = mkResult minutes st' := by
  obtain ⟨q, t, c, tw, mw, r⟩ := st
  obtain ⟨q', t', c', tw', mw', r'⟩ := st'
  simp only [RunState.locals, RunState.mk.injEq] at h
  obtain ⟨rfl, rfl, rfl, rfl, rfl, _⟩ := h
  rfl

/-- One tick on two engines whose local variables agree and whose next samples
agree (when a sample is drawn) leaves the local variables in agreement. -/
theorem tick_locals (s s' : Nat → Int) (minutes : Int) (st st' : RunState)
    (h : st.locals = st'.locals)
    (hs : st.current_time < minutes → s st.random = s' st'.random) :
    (tick s minutes st).locals = (tick s' minutes st').locals := by
  obtain ⟨q, t, c, tw, mw, r⟩ := st
  obtain ⟨q', t', c', tw', mw', r'⟩ := st'
  simp only [RunState.locals, RunState.mk.injEq] at h
  obtain ⟨rfl, rfl, rfl, rfl, rfl, _⟩ := h
  by_cases ho : t < minutes
  · have hs' : s r = s' r' := hs ho
    rw [tick, tick, arrive_open s minutes _ ho, arrive_open s' minutes _ ho]
    dsimp only
    rw [hs']
    cases hq : q ++ List.replicate (arrivals (s' r')) t <;> simp [serve, hq, RunState.locals]
  · rw [tick, tick, arrive_closed s minutes _ ho, arrive_closed s' minutes _ ho]
    cases q <;> simp [serve, RunState.locals]

/-- Two engines whose streams agree on the next `minutes` samples keep their
local variables in agreement through every tick of `run(minutes)`. -/
theorem iterate_locals (s s' : Nat → Int) (g g' : Nat) (minutes : Int)
    (hs : ∀ i, i < minutes.toNat → s (g + i) = s' (g' + i)) (k : Nat) :
    ((tick s minutes)^[k] (RunState.init g)).locals =
      ((tick s' minutes)^[k] (RunState.init g')).locals := by
  induction k with
  | zero => rfl
  | succ k ih =>
    rw [Function.iterate_succ_apply', Function.iterate_succ_apply']
    apply tick_locals s s' minutes _ _ ih
    intro ho
    have h1 := ((Inv.init s g minutes).iterate k).random_eq
    have h2 := ((Inv.init s' g' minutes).iterate k).random_eq
    rw [iterate_current_time] at h1 h2 ho
    rw [show (RunState.init g).current_time = 0 from rfl] at h1 ho
    rw [show (RunState.init g').current_time = 0 from rfl] at h2
    rw [h1, h2]
    rw [zero_add] at ho ⊢
    rw [min_eq_left (le_of_lt ho)]
    exact hs _ (by omega)

/-- The result of `run(minutes)` depends only on the next `minutes` samples. -/
theorem run_congr (s s' : Nat → Int) (g g' : Nat) (minutes : Int)
    (hs : ∀ i, i < minutes.toNat → s (g + i) = s' (g' + i)) :
    (run s g minutes).1 = (run s' g' minutes).1 := by
  obtain ⟨n, h1, h2, h3⟩ := runLoop_eq_iterate s minutes (RunState.init g)
  have hl := iterate_locals s s' g g' minutes hs
  have h1' : runLoop s' minutes (RunState.init g') =
      (tick s' minutes)^[n] (RunState.init g') := by
    apply runLoop_iterate_of
    · intro j hj
      exact (running_locals minutes _ _ (hl j)).mp (h2 j hj)
    · intro hc
      exact h3 ((running_locals minutes _ _ (hl n)).mpr hc)
  show mkResult minutes _ = mkResult minutes _
  rw [h1, h1']
  exact mkResult_locals minutes _ _ (hl n)

/-- The results of the doubling loop depend only on the samples drawn: two
engines whose streams agree from their current positions on produce the same
results and advance by the same number of samples. -/
theorem sweepLoop_congr (s s' : Nat → Int) (g g' : Nat) (max_minutes : Int)
    (hs : ∀ i, s (g + i) = s' (g' + i)) :
    ∀ (n : Nat) (resume : Bool) (time_duration : Int) (hpos : 0 < time_duration)
      (results : List SimulationResult) (d : Nat),
      (max_minutes - time_duration).toNat = n →
      (sweepLoop s max_minutes resume time_duration hpos results (g + d)).1 =
          (sweepLoop s' max_minutes resume time_duration hpos results (g' + d)).1 ∧
        ∃ d' : Nat,
          (sweepLoop s max_minutes resume time_duration hpos results (g + d)).2 =
              g + d' ∧
            (sweepLoop s' max_minutes resume time_duration hpos results (g' + d)).2 =
              g' + d' := by
  intro n
  induction n using Nat.strong_induction_on with
  | _ n ih =>
    intro resume td hpos results d hn
    have hrun : (run s (g + d) td).1 = (run s' (g' + d) td).1 :=
      run_congr s s' (g + d) (g' + d) td (fun i _ => by
        rw [Nat.add_assoc, Nat.add_assoc]; exact hs (d + i))
    by_cases hc : resume = true ∧ td ≤ max_minutes
    · obtain ⟨rfl, hle⟩ := hc
      by_cases h2 : 2 * td ≤ max_minutes
      · rw [sweepLoop_double s max_minutes td hpos results _ hle h2,
          sweepLoop_double s' max_minutes td hpos results _ hle h2,
          run_random, run_random, hrun, Nat.add_assoc, Nat.add_assoc]
        exact ih (max_minutes - td * 2).toNat (by omega) true (td * 2) (by omega)
          _ (d + td.toNat) rfl
      · rw [sweepLoop_last s max_minutes td hpos results _ hle (by omega),
          sweepLoop_last s' max_minutes td hpos results _ hle (by omega),
          run_random, run_random, hrun]
        exact ⟨rfl, d + td.toNat, by omega, by omega⟩
    · rw [sweepLoop_stop s max_minutes resume td hpos results _ hc,
        sweepLoop_stop s' max_minutes resume td hpos results _ hc]
      exact ⟨rfl, d, rfl, rfl⟩

/-- The results of `run_all` depend only on the samples drawn. -/
theorem run_all_congr (s s' : Nat → Int) (g g' : Nat) (max_minutes : Int)
    (hs : ∀ i, s (g + i) = s' (g' + i)) :
    (run_all s g max_minutes).1 = (run_all s' g' max_minutes).1 := by
  by_cases h : max_minutes < 30
  · rw [run_all_short s g max_minutes h, run_all_short s' g' max_minutes h]
    show [_] = [_]
    rw [run_congr s s' g g' max_minutes (fun i _ => hs i)]
  · have h30 : 30 ≤ max_minutes := not_lt.mp h
    obtain ⟨h1, d', h2, h3⟩ :=
      sweepLoop_congr s s' g g' max_minutes hs _ true 30 (by decide) [] 0 rfl
    simp only [Nat.add_zero] at h1 h2 h3
    rw [run_all_long s g max_minutes h30, run_all_long s' g' max_minutes h30, h1]
    split
    · show _ ++ [_] = _ ++ [_]
      rw [h2, h3, run_congr s s' (g + d') (g' + d') max_minutes (fun i _ => by
        rw [Nat.add_assoc, Nat.add_assoc]; exact hs (d' + i))]
    · exact h1

/-- The results of a sequence of `run` calls depend only on the samples
drawn. -/
theorem run_seq_congr (s s' : Nat → Int) (g g' : Nat)
    (hs : ∀ i, s (g + i) = s' (g' + i)) (ds : List Int) :
    ∀ d : Nat, (run_seq s (g + d) ds).1 = (run_seq s' (g' + d) ds).1 := by
  induction ds with
  | nil => intro d; rfl
  | cons m rest ih =>
    intro d
    show (run s (g + d) m).1 :: (run_seq s (run s (g + d) m).2 rest).1 =
      (run s' (g' + d) m).1 :: (run_seq s' (run s' (g' + d) m).2 rest).1
    rw [run_random, run_random, Nat.add_assoc, Nat.add_assoc, ih (d + m.toNat),
      run_congr s s' (g + d) (g' + d) m (fun i _ => by
        rw [Nat.add_assoc, Nat.add_assoc]; exact hs (d + i))]

/-- C10: determinism, with the generator modelled as a sample stream read from
a position.  Two engines whose streams agree from their current positions on
produce identical result sequences, both for `run_all(max_minutes)` and for any
sequence of `run` calls; and `run(minutes)` returns the same result on any two
streams that agree on the first `minutes` samples drawn. -/
theorem run_deterministic (s s' : Nat → Int) (g g' : Nat) :
    ((∀ i, s (g + i) = s' (g' + i)) →
      (∀ max_minutes : Int,
        (run_all s g max_minutes).1 = (run_all s' g' max_minutes).1) ∧
      (∀ ds : List Int, (run_seq s g ds).1 = (run_seq s' g' ds).1)) ∧
    (∀ minutes : Int, (∀ i, i < minutes.toNat → s (g + i) = s' (g' + i)) →
      (run s g minutes).1 = (run s' g' minutes).1) :=
  ⟨fun hs => ⟨fun max_minutes => run_all_congr s s' g g' max_minutes hs,
      fun ds => run_seq_congr s s' g g' hs ds 0⟩,
    fun minutes hs => run_congr s s' g g' minutes hs⟩

/-- Witness for C10: the stream that is 3 at position 0 and 0 afterwards agrees
with the stream that is constantly 3 on the first sample, so `run(1)` returns
the same result on both. -/
theorem run_deterministic_witness :
    (∀ i, i < (1 : Int).toNat →
      (fun j : Nat => if j = 0 then (3 : Int) else 0) (0 + i) =
        (fun _ : Nat => (3 : Int)) (0 + i)) ∧
      (run (fun j : Nat => if j = 0 then (3 : Int) else 0) 0 1).1 =
        (run (fun _ : Nat => (3 : Int)) 0 1).1 :=
  have h : ∀ i, i < (1 : Int).toNat →
      (fun j : Nat => if j = 0 then (3 : Int) else 0) (0 + i) =
        (fun _ : Nat => (3 : Int)) (0 + i) := by
    intro i hi
    have hi0 : i = 0 := by
      have : (1 : Int).toNat = 1 := rfl
      omega
    subst hi0
    rfl
  ⟨h, (run_deterministic _ _ 0 0).2 1 h⟩

/-! ## The argument parser -/

theorem parseArgs_nil (stoi : String → StoiResult) (p : ArgumentParser) :
    parseArgs stoi [] p = p := by
  rw [parseArgs]

theorem parseArgs_cons (stoi : String → StoiResult) (arg : String)
    (rest : List String) (p : ArgumentParser) :
    parseArgs stoi (arg :: rest) p =
      if arg = "-h" then parseArgs stoi rest { p with help := true }
      else if arg = "-m" then
        match rest with
        | [] => p
        | v :: rest' =>
          match stoi v with
          | StoiResult.value n =>
            parseArgs stoi rest' { p with max := if n ≤ 0 then 43200 else n }
          | StoiResult.invalid_argument =>
            parseArgs stoi (v :: rest') { p with max := 43200 }
          | StoiResult.out_of_range =>
            parseArgs stoi (v :: rest') { p with max := 43200 }
      else parseArgs stoi rest p := by
  rw [parseArgs.eq_def]

/-- The parser keeps `max` positive. -/
theorem parseArgs_pos (stoi : String → StoiResult) :
    ∀ (n : Nat) (args : List String) (p : ArgumentParser), args.length = n →
      0 < p.max → 0 < (parseArgs stoi args p).max := by
  intro n
  induction n using Nat.strong_induction_on with
  | _ n ih =>
    intro args p hn hp
    cases args with
    | nil => rw [parseArgs_nil]; exact hp
    | cons arg rest =>
      rw [parseArgs_cons]
      simp only [List.length_cons] at hn
      split
      · exact ih rest.length (by omega) rest _ rfl hp
      · split
        · cases rest with
          | nil => exact hp
          | cons v rest' =>
            simp only [List.length_cons] at hn
            dsimp only
            cases hv : stoi v with
            | value k =>
              dsimp only
              apply ih rest'.length (by omega) rest' _ rfl
              show 0 < (if k ≤ 0 then 43200 else k)
              split <;> omega
            | invalid_argument =>
              dsimp only
              exact ih (rest'.length + 1) (by omega) (v :: rest') _ rfl
                (show (0 : Int) < 43200 by decide)
            | out_of_range =>
              dsimp only
              exact ih (rest'.length + 1) (by omega) (v :: rest') _ rfl
                (show (0 : Int) < 43200 by decide)
        · exact ih rest.length (by omega) rest _ rfl hp

/-- Without a `-m` flag the parser leaves `max` unchanged. -/
theorem parseArgs_no_flag (stoi : String → StoiResult) :
    ∀ (args : List String) (p : ArgumentParser), "-m" ∉ args →
      (parseArgs stoi args p).max = p.max := by
  intro args
  induction args with
  | nil => intro p _; rw [parseArgs_nil]
  | cons arg rest ih =>
    intro p hm
    have h1 : arg ≠ "-m" := fun h => hm (h ▸ List.mem_cons_self _ _)
    have h2 : "-m" ∉ rest := fun h => hm (List.mem_cons_of_mem _ h)
    rw [parseArgs_cons, if_neg h1]
    split <;> exact ih _ h2

/-- The parser on a lone value that is not a flag it knows, or on any single
argument: `max` is unchanged. -/
theorem parseArgs_single (stoi : String → StoiResult) (v : String)
    (p : ArgumentParser) : (parseArgs stoi [v] p).max = p.max := by
  rw [parseArgs_cons]
  split
  · rw [parseArgs_nil]
  · split
    · rfl
    · rw [parseArgs_nil]

/-- C11: for every argument vector, with `std::stoi` an arbitrary function from
strings to an `int` or one of its two exceptions, `max_minutes()` is strictly
positive; for `argv = [prog, "-m", v]` it is `stoi(v)` when that succeeds with
a value `> 0` and 43200 when `stoi(v)` throws or yields a value `≤ 0`; and
with no `-m` flag among the arguments it is 43200. -/
theorem max_minutes_positive (stoi : String → StoiResult) :
    (∀ argv : List String, 0 < max_minutes stoi argv) ∧
      (∀ prog v : String,
        max_minutes stoi [prog, "-m", v] =
          match stoi v with
          | StoiResult.value n => if 0 < n then n else 43200
          | StoiResult.invalid_argument => 43200
          | StoiResult.out_of_range => 43200) ∧
      (∀ argv : List String, "-m" ∉ argv.tail → max_minutes stoi argv = 43200) := by
  refine ⟨?_, ?_, ?_⟩
  · intro argv
    exact parseArgs_pos stoi _ argv.tail ArgumentParser.initial rfl (by decide)
  · intro prog v
    show (parseArgs stoi ["-m", v] ArgumentParser.initial).max = _
    rw [parseArgs_cons, if_neg (by decide), if_pos rfl]
    dsimp only
    cases hv : stoi v with
    | value n =>
      dsimp only
      rw [parseArgs_nil]
      show (if n ≤ 0 then (43200 : Int) else n) = if 0 < n then n else 43200
      split <;> split <;> omega
    | invalid_argument =>
      dsimp only
      rw [parseArgs_single]
    | out_of_range =>
      dsimp only
      rw [parseArgs_single]
  · intro argv h
    exact parseArgs_no_flag stoi argv.tail ArgumentParser.initial h

/-! ## One tick: cars washed and samples drawn -/

theorem tick_cars_washed (s : Nat → Int) (minutes : Int) (st : RunState) :
    (tick s minutes st).cars_washed =
      st.cars_washed + (if (arrive s minutes st).car_queue = [] then 0 else 1) := by
  have ha : (arrive s minutes st).cars_washed = st.cars_washed := by
    unfold arrive; split <;> rfl
  show (serve (arrive s minutes st)).cars_washed = _
  unfold serve
  cases hq : (arrive s minutes st).car_queue with
  | nil => simp [ha]
  | cons a rest => simp [ha]

theorem iterate_cars_washed_le (s : Nat → Int) (minutes : Int) (st : RunState)
    (n : Nat) :
    ((tick s minutes)^[n] st).cars_washed ≤ st.cars_washed + n := by
  induction n with
  | zero => simp
  | succ n ih =>
    rw [Function.iterate_succ_apply', tick_cars_washed]
    push_cast
    split <;> omega

/-! ## Sequences of `run` calls on one engine -/

theorem duration_of_run (s : Nat → Int) (g : Nat) (minutes : Int) :
    (run s g minutes).1.duration = minutes := rfl

theorem run_seq_durations (s : Nat → Int) :
    ∀ (ds : List Int) (g : Nat), durations (run_seq s g ds).1 = ds := by
  intro ds
  induction ds with
  | nil => intro g; rfl
  | cons d rest ih =>
    intro g
    show (run s g d).1.duration :: durations (run_seq s (run s g d).2 rest).1 = _
    rw [ih, duration_of_run]

theorem Threaded.nil (s : Nat → Int) (g : Nat) : Threaded s g ([], g) := rfl

/-- C13: `run(0)` yields `total_cars = 0`, `longest_wait = 0` and
`average_wait = 0` on every stream: the loop condition is false on entry, so
the loop body never executes, no sample is drawn and the queue stays empty. -/
theorem run_zero (s : Nat → Int) (g : Nat) :
    (run s g 0).1.total_cars = 0 ∧ (run s g 0).1.longest_wait = 0 ∧
      (run s g 0).1.average_wait = 0 ∧
      ¬ running 0 (RunState.init g) ∧
      runLoop s 0 (RunState.init g) = RunState.init g ∧
      (run s g 0).2 = g ∧
      (runLoop s 0 (RunState.init g)).car_queue = [] := by
  have hr : ¬ running 0 (RunState.init g) := by
    intro h
    rcases h with h | h
    · exact absurd h (show ¬ ((0 : Int) < 0) by decide)
    · exact h rfl
  have hl : runLoop s 0 (RunState.init g) = RunState.init g :=
    runLoop_done s 0 _ hr
  refine ⟨?_, ?_, ?_, hr, hl, ?_, ?_⟩
  · show (runLoop s 0 (RunState.init g)).cars_washed = 0
    rw [hl]; rfl
  · show (runLoop s 0 (RunState.init g)).max_wait_time = 0
    rw [hl]; rfl
  · show (mkResult 0 (runLoop s 0 (RunState.init g))).average_wait = 0
    rw [hl]; rfl
  · show (runLoop s 0 (RunState.init g)).random = g
    rw [hl]; rfl
  · rw [hl]; rfl

/-- C15: in each tick `cars_washed` increases by exactly 1 if the queue is
non-empty after the arrival phase and by 0 otherwise, so after `n` ticks
`cars_washed ≤ n`; and at every tick boundary `cars_washed` plus the queue
length is the number of arrivals generated by the samples drawn so far. -/
theorem tick_conservation (s : Nat → Int) (g : Nat) (minutes : Int) :
    (∀ st : RunState,
      (tick s minutes st).cars_washed =
        st.cars_washed + (if (arrive s minutes st).car_queue = [] then 0 else 1)) ∧
      (∀ n : Nat, ((tick s minutes)^[n] (RunState.init g)).cars_washed ≤ n) ∧
      (∀ n : Nat,
        ((tick s minutes)^[n] (RunState.init g)).cars_washed +
            (((tick s minutes)^[n] (RunState.init g)).car_queue.length : Int) =
          ((∑ i in Finset.range (((tick s minutes)^[n] (RunState.init g)).random - g),
            arrivals (s (g + i)) : Nat) : Int)) := by
  refine ⟨tick_cars_washed s minutes, ?_, ?_⟩
  · intro n
    have := iterate_cars_washed_le s minutes (RunState.init g) n
    rw [show (RunState.init g).cars_washed = 0 from rfl, zero_add] at this
    exact this
  · intro n
    exact ((Inv.init s g minutes).iterate n).conserve

/-- C20: for `max_minutes ≥ 30` the doubling loop of `run_all` leaves a
non-empty result sequence, so at the closing check `results.empty()` is false
and `results.back()` reads the last result, and the closing run is appended
exactly when that result's duration is below `max_minutes`; for
`max_minutes < 30` the first conjunct `max_minutes >= 30` of the closing check
is false and `run_all` returns the single result of the short branch. -/
theorem closing_check_safe (s : Nat → Int) (g : Nat) (max_minutes : Int) :
    (30 ≤ max_minutes →
      (sweepLoop s max_minutes true 30 (by decide) [] g).1 ≠ [] ∧
      ∃ last : SimulationResult,
        (sweepLoop s max_minutes true 30 (by decide) [] g).1.getLast? = some last ∧
        run_all s g max_minutes =
          if last.duration < max_minutes then
            ((sweepLoop s max_minutes true 30 (by decide) [] g).1 ++
              [(run s (sweepLoop s max_minutes true 30 (by decide) [] g).2
                max_minutes).1],
            (run s (sweepLoop s max_minutes true 30 (by decide) [] g).2
              max_minutes).2)
          else sweepLoop s max_minutes true 30 (by decide) [] g) ∧
      (max_minutes < 30 →
        ¬ max_minutes ≥ 30 ∧
        sweepLoop s max_minutes false 30 (by decide) [(run s g max_minutes).1]
            (run s g max_minutes).2 =
          ([(run s g max_minutes).1], (run s g max_minutes).2) ∧
        run_all s g max_minutes =
          ([(run s g max_minutes).1], (run s g max_minutes).2)) := by
  constructor
  · intro h
    have hne := sweepLoop_ne_nil s max_minutes 30 (by decide) [] g h
    refine ⟨hne, ?_⟩
    cases hl : (sweepLoop s max_minutes true 30 (by decide) [] g).1.getLast? with
    | none => exact absurd (List.getLast?_eq_none_iff.mp hl) hne
    | some last =>
      refine ⟨last, rfl, ?_⟩
      rw [run_all_long s g max_minutes h, hl]
      rfl
  · intro h
    exact ⟨by omega, sweepLoop_stop s max_minutes false 30 (by decide) _ _ (by simp),
      run_all_short s g max_minutes h⟩

/-! ## First in, first out -/

theorem arrive_car_queue (s : Nat → Int) (minutes : Int) (st : RunState) :
    (arrive s minutes st).car_queue = st.car_queue ++ pushed s minutes st := by
  unfold arrive pushed
  split
  · dsimp only
    split
    · rfl
    · split
      · simp
      · simp
  · simp

theorem serve_car_queue (st : RunState) :
    st.car_queue = popped st ++ (serve st).car_queue := by
  unfold popped serve
  cases h : st.car_queue <;> simp [h]

/-- Everything that was in the queue or was enqueued during `n` ticks has been
dequeued, in the same order, or is still in the queue. -/
theorem fifo_invariant (s : Nat → Int) (minutes : Int) :
    ∀ (n : Nat) (st : RunState),
      st.car_queue ++ enqueued s minutes n st =
        dequeued s minutes n st ++ ((tick s minutes)^[n] st).car_queue := by
  intro n
  induction n with
  | zero => intro st; simp [enqueued, dequeued]
  | succ n ih =>
    intro st
    rw [Function.iterate_succ_apply]
    show st.car_queue ++ (pushed s minutes st ++ enqueued s minutes n (tick s minutes st)) =
      (popped (arrive s minutes st) ++ dequeued s minutes n (tick s minutes st)) ++ _
    rw [← List.append_assoc, ← arrive_car_queue, serve_car_queue (arrive s minutes st),
      List.append_assoc, ← tick_car_queue, ih, List.append_assoc]

theorem pushed_eq (s : Nat → Int) (minutes : Int) (st : RunState) :
    ∀ a ∈ pushed s minutes st, a = st.current_time := by
  intro a ha
  unfold pushed at ha
  split at ha
  · split at ha
    · simpa using ha
    · split at ha
      · simpa using ha
      · simp at ha
  · simp at ha

/-- Timestamps are enqueued in non-decreasing order, none before the current
time. -/
theorem enqueued_sorted (s : Nat → Int) (minutes : Int) :
    ∀ (n : Nat) (st : RunState),
      (enqueued s minutes n st).Pairwise (· ≤ ·) ∧
        ∀ a ∈ enqueued s minutes n st, st.current_time ≤ a := by
  intro n
  induction n with
  | zero => intro st; simp [enqueued]
  | succ n ih =>
    intro st
    obtain ⟨h1, h2⟩ := ih (tick s minutes st)
    rw [tick_current_time] at h2
    have hp := pushed_eq s minutes st
    show (pushed s minutes st ++ enqueued s minutes n (tick s minutes st)).Pairwise (· ≤ ·) ∧
      ∀ a ∈ pushed s minutes st ++ enqueued s minutes n (tick s minutes st), _
    refine ⟨?_, ?_⟩
    · rw [List.pairwise_append]
      refine ⟨?_, h1, ?_⟩
      · rw [List.pairwise_iff_forall_sublist]
        intro a b hab
        have ha := hp a (hab.subset (List.mem_cons_self _ _))
        have hb := hp b (hab.subset (List.mem_cons_of_mem _ (List.mem_singleton_self b)))
        omega
      · intro a ha b hb
        have := hp a ha
        have := h2 b hb
        omega
    · intro a ha
      rw [List.mem_append] at ha
      rcases ha with ha | ha
      · have := hp a ha; omega
      · have := h2 a ha; omega

/-- At every tick of a run the queue is sorted, before and after the arrival
phase. -/
theorem queue_sorted (s : Nat → Int) (g : Nat) (minutes : Int) (n : Nat) :
    ((tick s minutes)^[n] (RunState.init g)).car_queue.Pairwise (· ≤ ·) ∧
      (arrive s minutes ((tick s minutes)^[n] (RunState.init g))).car_queue.Pairwise
        (· ≤ ·) := by
  have h1 := fifo_invariant s minutes n (RunState.init g)
  have h2 := fifo_invariant s minutes (n + 1) (RunState.init g)
  rw [show (RunState.init g).car_queue = [] from rfl, List.nil_append] at h1 h2
  have s1 := (enqueued_sorted s minutes n (RunState.init g)).1
  have s2 := (enqueued_sorted s minutes (n + 1) (RunState.init g)).1
  rw [h1] at s1
  refine ⟨(List.pairwise_append.mp s1).2.1, ?_⟩
  have hinv := ((Inv.init s g minutes).iterate n).queue_lt
  rw [arrive_car_queue, List.pairwise_append]
  refine ⟨(List.pairwise_append.mp s1).2.1, ?_, ?_⟩
  · rw [List.pairwise_iff_forall_sublist]
    intro a b hab
    have ha := pushed_eq s minutes _ a (hab.subset (List.mem_cons_self _ _))
    have hb := pushed_eq s minutes _ b
      (hab.subset (List.mem_cons_of_mem _ (List.mem_singleton_self b)))
    omega
  · intro a ha b hb
    have := (hinv a ha).2
    have := pushed_eq s minutes _ b hb
    omega

/-- C14: first in, first out.  Over any number of ticks of `run(minutes)` the
timestamps dequeued are an initial part of the timestamps enqueued, in the same
order, the rest being the queue; when the loop ends the two sequences are
identical.  Both are non-decreasing, the queue is sorted at every tick before
and after the arrival phase, and the car served carries the minimum timestamp
present. -/
theorem fifo_order (s : Nat → Int) (g : Nat) (minutes : Int) :
    (∀ n : Nat,
      enqueued s minutes n (RunState.init g) =
        dequeued s minutes n (RunState.init g) ++
          ((tick s minutes)^[n] (RunState.init g)).car_queue) ∧
      (∃ n : Nat,
        runLoop s minutes (RunState.init g) = (tick s minutes)^[n] (RunState.init g) ∧
        dequeued s minutes n (RunState.init g) =
          enqueued s minutes n (RunState.init g)) ∧
      (∀ n : Nat, (enqueued s minutes n (RunState.init g)).Pairwise (· ≤ ·)) ∧
      (∀ n : Nat, (dequeued s minutes n (RunState.init g)).Pairwise (· ≤ ·)) ∧
      (∀ n : Nat,
        ((tick s minutes)^[n] (RunState.init g)).car_queue.Pairwise (· ≤ ·) ∧
        (arrive s minutes ((tick s minutes)^[n] (RunState.init g))).car_queue.Pairwise
          (· ≤ ·)) ∧
      (∀ (n : Nat) (arrival_time : Int) (rest : List Int),
        (arrive s minutes ((tick s minutes)^[n] (RunState.init g))).car_queue =
          arrival_time :: rest →
        popped (arrive s minutes ((tick s minutes)^[n] (RunState.init g))) =
            [arrival_time] ∧
          ∀ b ∈ arrival_time :: rest, arrival_time ≤ b) := by
  have hf : ∀ n : Nat,
      enqueued s minutes n (RunState.init g) =
        dequeued s minutes n (RunState.init g) ++
          ((tick s minutes)^[n] (RunState.init g)).car_queue := by
    intro n
    have := fifo_invariant s minutes n (RunState.init g)
    rwa [show (RunState.init g).car_queue = [] from rfl, List.nil_append] at this
  refine ⟨hf, ?_, ?_, ?_, queue_sorted s g minutes, ?_⟩
  · obtain ⟨n, h1, _, _⟩ := runLoop_eq_iterate s minutes (RunState.init g)
    refine ⟨n, h1, ?_⟩
    have hq := (runLoop_exit s g minutes).2.2
    rw [h1] at hq
    rw [hf n, hq, List.append_nil]
  · intro n
    exact (enqueued_sorted s minutes n (RunState.init g)).1
  · intro n
    have := (enqueued_sorted s minutes n (RunState.init g)).1
    rw [hf n] at this
    exact (List.pairwise_append.mp this).1
  · intro n a rest hq
    refine ⟨?_, ?_⟩
    · unfold popped
      rw [hq]
    · have hs := (queue_sorted s g minutes n).2
      rw [hq, List.pairwise_cons] at hs
      intro b hb
      rcases List.mem_cons.mp hb with rfl | hb
      · exact le_refl _
      · exact hs.1 b hb

/-! ## Bounds on waits and accumulators -/

theorem waitOk_concat :
    ∀ (q : List Int) (t c a : Int), WaitOk t c q →
      2 * (t + q.length - a) ≤ c + q.length + 1 → WaitOk t c (q ++ [a]) := by
  intro q
  induction q with
  | nil =>
    intro t c a _ h
    simp only [List.length_nil, Nat.cast_zero, add_zero] at h
    exact ⟨h, trivial⟩
  | cons b r ih =>
    intro t c a hq h
    simp only [List.length_cons, Nat.cast_add, Nat.cast_one] at h
    exact ⟨hq.1, ih (t + 1) (c + 1) a hq.2 (by omega)⟩

/-- After the arrival phase the wait bound still holds for the whole queue. -/
theorem Bounds.afterArrive {s : Nat → Int} {minutes : Int} {st : RunState}
    (h : Bounds st) :
    WaitOk st.current_time st.cars_washed (arrive s minutes st).car_queue := by
  have hl := h.len_le
  rw [arrive_car_queue]
  unfold pushed
  split
  · split
    · exact waitOk_concat _ _ _ _ h.waits (by omega)
    · split
      · have h1 : WaitOk st.current_time st.cars_washed
            (st.car_queue ++ [st.current_time]) :=
          waitOk_concat _ _ _ _ h.waits (by omega)
        have h2 := waitOk_concat _ _ _ st.current_time h1 (by
          simp only [List.length_append, List.length_singleton, Nat.cast_add,
            Nat.cast_one]
          omega)
        rw [List.append_assoc] at h2
        exact h2
      · rw [List.append_nil]; exact h.waits
  · rw [List.append_nil]; exact h.waits

theorem Bounds.atStart (g : Nat) : Bounds (RunState.init g) := by
  refine ⟨?_, trivial, ?_, ?_⟩ <;> simp [RunState.init]

theorem Bounds.afterTick {s : Nat → Int} {minutes : Int} {st : RunState}
    (h : Bounds st) : Bounds (tick s minutes st) := by
  have hw : WaitOk st.current_time st.cars_washed (arrive s minutes st).car_queue :=
    h.afterArrive
  have hlen := arrive_length_le s minutes st
  have hl := h.len_le
  have hm := h.max_le
  have ht := h.total_le
  have hc : (arrive s minutes st).cars_washed = st.cars_washed := by
    unfold arrive; split <;> rfl
  have hmx : (arrive s minutes st).max_wait_time = st.max_wait_time := by
    unfold arrive; split <;> rfl
  have htw : (arrive s minutes st).total_wait_time = st.total_wait_time := by
    unfold arrive; split <;> rfl
  have htm := arrive_current_time s minutes st
  have hge := arrive_length_ge s minutes st
  rw [show tick s minutes st =
    { serve (arrive s minutes st) with
      current_time := (serve (arrive s minutes st)).current_time + 1 } from rfl]
  generalize arrive s minutes st = st1 at *
  obtain ⟨q, t, c, tw, mw, r⟩ := st1
  dsimp only at hw hlen hc hmx htw htm hge
  subst hc hmx htw htm
  cases q with
  | nil =>
    have h0 : st.car_queue.length = 0 := by simpa using hge
    refine ⟨?_, trivial, hm, ht⟩
    show ((0 : Nat) : Int) ≤ st.cars_washed
    omega
  | cons a rest =>
    obtain ⟨hw1, hw2⟩ := hw
    simp only [List.length_cons] at hlen
    refine ⟨?_, hw2, ?_, ?_⟩
    · show (rest.length : Int) ≤ st.cars_washed + 1
      omega
    · show 2 * (if st.current_time - a > st.max_wait_time then st.current_time - a
        else st.max_wait_time) ≤ st.cars_washed + 1
      split <;> omega
    · show 4 * (st.total_wait_time + (st.current_time - a)) ≤
        (st.cars_washed + 1) * (st.cars_washed + 1)
      obtain ⟨j, hj⟩ : ∃ j, st.cars_washed = 2 * j ∨ st.cars_washed = 2 * j + 1 :=
        ⟨st.cars_washed / 2, by omega⟩
      rcases hj with hj | hj
      · rw [hj] at ht hw1 ⊢
        have e1 : 2 * j * (2 * j) = 4 * (j * j) := by ring
        have e2 : (2 * j + 1) * (2 * j + 1) = 4 * (j * j) + 4 * j + 1 := by ring
        rw [e1] at ht
        rw [e2]
        generalize j * j = x at *
        omega
      · rw [hj] at ht hw1 ⊢
        have e1 : (2 * j + 1) * (2 * j + 1) = 4 * (j * j) + 4 * j + 1 := by ring
        have e2 : (2 * j + 1 + 1) * (2 * j + 1 + 1) = 4 * (j * j) + 8 * j + 4 := by
          ring
        rw [e1] at ht
        rw [e2]
        generalize j * j = x at *
        omega

theorem Bounds.afterTicks (s : Nat → Int) (g : Nat) (minutes : Int) (n : Nat) :
    Bounds ((tick s minutes)^[n] (RunState.init g)) := by
  induction n with
  | zero => exact Bounds.atStart g
  | succ n ih =>
    rw [Function.iterate_succ_apply']
    exact ih.afterTick

theorem arrivals_le_two (x : Int) : arrivals x ≤ 2 := by
  unfold arrivals
  split
  · omega
  · split <;> omega

theorem sum_arrivals_le (s : Nat → Int) (g n : Nat) :
    ∑ i in Finset.range n, arrivals (s (g + i)) ≤ 2 * n := by
  induction n with
  | zero => simp
  | succ n ih =>
    rw [Finset.sum_range_succ]
    have := arrivals_le_two (s (g + n))
    omega

/-- At most two cars are washed per minute of the open window. -/
theorem Inv.washed_le {s : Nat → Int} {g : Nat} {minutes : Int} {st : RunState}
    (h : Inv s g minutes st) : st.cars_washed ≤ 2 * (minutes.toNat : Int) := by
  have hc := h.conserve
  have hs := sum_arrivals_le s g (st.random - g)
  have hr := h.random_eq
  have ht := h.time_nonneg
  have hmin : (min st.current_time minutes).toNat ≤ minutes.toNat := by
    rcases le_total st.current_time minutes with h1 | h1
    · rw [min_eq_left h1]; omega
    · rw [min_eq_right h1]
  omega

/-- The loop of `run` ends after at most `2 * minutes` ticks. -/
theorem run_final_time (s : Nat → Int) (g : Nat) (minutes : Int) :
    ∃ n : Nat, n ≤ 2 * minutes.toNat ∧
      runLoop s minutes (RunState.init g) = (tick s minutes)^[n] (RunState.init g) ∧
      (runLoop s minutes (RunState.init g)).current_time = n ∧
      ∀ k, k < n → running minutes ((tick s minutes)^[k] (RunState.init g)) := by
  obtain ⟨h1, h2⟩ := runLoop_count s g minutes
  have heq := runLoop_iterate_of s minutes _ (RunState.init g) h1 h2
  have hlen := ((Inv.init s g minutes).iterate minutes.toNat).queue_len
  rw [iterate_current_time, show (RunState.init g).current_time = 0 from rfl,
    zero_add] at hlen
  refine ⟨_, by omega, heq, ?_, h1⟩
  rw [heq, iterate_current_time]
  simp [RunState.init]

/-! ## The stream that is constantly 3 -/

/-- One tick that finds a car at the front of the queue after the arrival
phase. -/
theorem tick_of_cons (s : Nat → Int) (minutes : Int) (st : RunState) (a : Int)
    (rest : List Int) (h : (arrive s minutes st).car_queue = a :: rest) :
    tick s minutes st =
      { car_queue := rest
        current_time := st.current_time + 1
        cars_washed := st.cars_washed + 1
        total_wait_time := st.total_wait_time + (st.current_time - a)
        max_wait_time :=
          if st.current_time - a > st.max_wait_time then st.current_time - a
          else st.max_wait_time
        random := if st.current_time < minutes then st.random + 1 else st.random } := by
  by_cases ho : st.current_time < minutes
  · rw [arrive_open s minutes st ho] at h
    dsimp only at h
    rw [tick, arrive_open s minutes st ho, if_pos ho]
    simp only [serve, h]
  · rw [arrive_closed s minutes st ho] at h
    rw [tick, arrive_closed s minutes st ho, if_neg ho]
    simp only [serve, h]

theorem waitSum_double (m : Nat) : waitSum (2 * m) = (m : Int) * m := by
  induction m with
  | zero => rfl
  | succ m ih =>
    have e : 2 * (m + 1) = 2 * m + 1 + 1 := by ring
    rw [e]
    show waitSum (2 * m) + (((2 * m : Nat) : Int) - ((2 * m / 2 : Nat) : Int)) +
      (((2 * m + 1 : Nat) : Int) - (((2 * m + 1) / 2 : Nat) : Int)) = _
    rw [ih]
    have h1 : 2 * m / 2 = m := by omega
    have h2 : (2 * m + 1) / 2 = m := by omega
    rw [h1, h2]
    push_cast
    ring

theorem busy_queue_open (k : Nat) :
    (List.range' k k).map (fun i => ((i / 2 : Nat) : Int)) ++ [(k : Int), (k : Int)] =
      ((k / 2 : Nat) : Int) ::
        (List.range' (k + 1) (k + 1)).map (fun i => ((i / 2 : Nat) : Int)) := by
  have e : List.range' k (k + 1 + 1) = List.range' k k ++ [k + k, k + k + 1] := by
    rw [List.range'_concat, List.range'_concat]
    simp only [Nat.one_mul, List.append_assoc, List.singleton_append]
    rw [Nat.add_assoc]
  have e2 : List.range' k (k + 1 + 1) = k :: List.range' (k + 1) (k + 1) :=
    List.range'_succ k (k + 1) 1
  rw [← List.map_cons (fun i => ((i / 2 : Nat) : Int)), ← e2, e, List.map_append]
  have h1 : (k + k) / 2 = k := by omega
  have h2 : (k + k + 1) / 2 = k := by omega
  simp only [List.map_cons, List.map_nil, h1, h2]

/-- One tick on the stream that is constantly 3, as long as cars remain. -/
theorem busy_tick (g m k : Nat) (h : k < 2 * m) :
    tick (fun _ => 3) (m : Int) (busyState g m k) = busyState g m (k + 1) := by
  have hq : (arrive (fun _ => 3) (m : Int) (busyState g m k)).car_queue =
      ((k / 2 : Nat) : Int) ::
        (List.range' (k + 1) (2 * min (k + 1) m - (k + 1))).map
          (fun i => ((i / 2 : Nat) : Int)) := by
    rw [arrive_car_queue]
    unfold pushed
    show (List.range' k (2 * min k m - k)).map (fun i => ((i / 2 : Nat) : Int)) ++
      (if (k : Int) < (m : Int) then
        if (3 : Int) = 2 then [(k : Int)]
        else if (3 : Int) = 3 then [(k : Int), (k : Int)] else []
      else []) = _
    by_cases ho : k < m
    · have e1 : 2 * min k m - k = k := by omega
      have e2 : 2 * min (k + 1) m - (k + 1) = k + 1 := by omega
      rw [if_pos (by exact_mod_cast ho), if_neg (by decide), if_pos rfl, e1, e2]
      exact busy_queue_open k
    · have e1 : 2 * min k m - k = (2 * min (k + 1) m - (k + 1)) + 1 := by omega
      rw [if_neg (by exact_mod_cast ho), List.append_nil, e1, List.range'_succ,
        List.map_cons]
  rw [tick_of_cons _ _ _ _ _ hq]
  unfold busyState
  simp only [RunState.mk.injEq, true_and]
  refine ⟨by push_cast; ring, by push_cast; ring, rfl, ?_, ?_⟩
  · split <;> omega
  · by_cases ho : k < m
    · rw [if_pos (by exact_mod_cast ho)]; omega
    · rw [if_neg (by exact_mod_cast ho)]; omega

theorem busy_iterate (g m : Nat) :
    ∀ k : Nat, k ≤ 2 * m →
      (tick (fun _ => 3) (m : Int))^[k] (RunState.init g) = busyState g m k := by
  intro k
  induction k with
  | zero => intro _; simp [busyState, RunState.init, waitSum]
  | succ k ih =>
    intro hk
    rw [Function.iterate_succ_apply', ih (by omega), busy_tick g m k (by omega)]

/-- Final state of `run(m)` on the stream that is constantly 3: the loop runs
`2 * m` ticks and washes `2 * m` cars, the last of which waits `m` minutes, for
a total wait of `m * m`. -/
theorem busy_final (g m : Nat) :
    runLoop (fun _ => 3) (m : Int) (RunState.init g) =
      { car_queue := []
        current_time := ((2 * m : Nat) : Int)
        cars_washed := ((2 * m : Nat) : Int)
        total_wait_time := (m : Int) * m
        max_wait_time := (m : Int)
        random := g + m } := by
  have hrun : runLoop (fun _ => 3) (m : Int) (RunState.init g) =
      (tick (fun _ => 3) (m : Int))^[2 * m] (RunState.init g) := by
    apply runLoop_iterate_of
    · intro j hj
      rw [busy_iterate g m j (by omega)]
      by_cases ho : j < m
      · left
        show (j : Int) < (m : Int)
        exact_mod_cast ho
      · right
        intro hc
        have hl := congrArg List.length hc
        simp only [busyState, List.length_map, List.length_range', List.length_nil] at hl
        omega
    · rw [busy_iterate g m (2 * m) (le_refl _)]
      intro hc
      rcases hc with hc | hc
      · have : ((2 * m : Nat) : Int) < (m : Int) := hc
        omega
      · apply hc
        have e : 2 * min (2 * m) m - 2 * m = 0 := by omega
        simp only [busyState, e, List.range'_zero, List.map_nil]
  rw [hrun, busy_iterate g m (2 * m) (le_refl _)]
  unfold busyState
  have e : 2 * min (2 * m) m - 2 * m = 0 := by omega
  have e2 : 2 * m / 2 = m := by omega
  have e3 : min (2 * m) m = m := by omega
  rw [e, e2, e3, waitSum_double]
  rfl

/-! ## 32-bit arithmetic -/

theorem wrap32_of_range (x : Int) (h1 : -2147483648 ≤ x) (h2 : x ≤ 2147483647) :
    wrap32 x = x := by
  unfold wrap32; omega

theorem wrap32_add_wrap32 (x y : Int) : wrap32 (wrap32 x + y) = wrap32 (x + y) := by
  unfold wrap32; omega

theorem arrive_wrapTotal (s : Nat → Int) (minutes : Int) (st : RunState) :
    arrive s minutes st.wrapTotal = (arrive s minutes st).wrapTotal := by
  unfold arrive RunState.wrapTotal
  dsimp only
  split <;> rfl

theorem running_wrapTotal (minutes : Int) (st : RunState) :
    running minutes st.wrapTotal ↔ running minutes st := Iff.rfl

/-- As long as `current_time` and `cars_washed` stay below the largest `int`,
a 32-bit tick differs from an unbounded tick in `total_wait_time` only, which
is the wrapped value of the unbounded one. -/
theorem tick32_wrapTotal {s : Nat → Int} {g : Nat} {minutes : Int} {st : RunState}
    (h : Inv s g minutes st) (ht : st.current_time < 2147483647)
    (hc : st.cars_washed < 2147483647) :
    tick32 s minutes st.wrapTotal = (tick s minutes st).wrapTotal := by
  have hmid := h.toMid
  have hc1 : (arrive s minutes st).cars_washed = st.cars_washed := by
    unfold arrive; split <;> rfl
  have ht1 := arrive_current_time s minutes st
  unfold tick32 tick
  rw [arrive_wrapTotal]
  generalize arrive s minutes st = st1 at *
  obtain ⟨q, t, c, tw, mw, r⟩ := st1
  dsimp only at hc1 ht1
  subst hc1 ht1
  have h0 := hmid.time_nonneg
  have hw := hmid.washed_nonneg
  dsimp only at h0 hw
  cases q with
  | nil =>
    simp only [RunState.wrapTotal, serve32, serve]
    rw [wrap32_of_range _ (by omega) (by omega)]
  | cons a rest =>
    have ha := hmid.queue_le a (List.mem_cons_self a rest)
    dsimp only at ha
    simp only [RunState.wrapTotal, serve32, serve]
    rw [wrap32_of_range (st.current_time - a) (by omega) (by omega),
      wrap32_of_range (st.current_time + 1) (by omega) (by omega),
      wrap32_of_range (st.cars_washed + 1) (by omega) (by omega),
      wrap32_add_wrap32]

/-- If the unbounded loop runs `k` more ticks and `current_time` and
`cars_washed` stay in range, the 32-bit loop ends after the same `k` ticks, in
the same state up to the wrapping of `total_wait_time`. -/
theorem runLoop32_eq (s : Nat → Int) (g : Nat) (minutes : Int) :
    ∀ (k : Nat) (st : RunState) (fuel : Nat), Inv s g minutes st →
      (∀ j, j < k → running minutes ((tick s minutes)^[j] st)) →
      ¬ running minutes ((tick s minutes)^[k] st) →
      st.current_time + k ≤ 2147483647 → st.cars_washed + k ≤ 2147483647 →
      k < fuel →
      runLoop32 s minutes fuel st.wrapTotal =
        some ((tick s minutes)^[k] st).wrapTotal := by
  intro k
  induction k with
  | zero =>
    intro st fuel _ _ hn _ _ hf
    obtain ⟨f, rfl⟩ : ∃ f, fuel = f + 1 := ⟨fuel - 1, by omega⟩
    show (if running minutes st.wrapTotal then _ else _) = _
    rw [if_neg ((running_wrapTotal minutes st).not.mpr hn)]
    rfl
  | succ k ih =>
    intro st fuel hinv hr hn ht hc hf
    obtain ⟨f, rfl⟩ : ∃ f, fuel = f + 1 := ⟨fuel - 1, by omega⟩
    show (if running minutes st.wrapTotal then _ else _) = _
    rw [if_pos ((running_wrapTotal minutes st).mpr (hr 0 (by omega))),
      tick32_wrapTotal hinv (by push_cast at ht; omega) (by push_cast at hc; omega),
      Function.iterate_succ_apply]
    apply ih (tick s minutes st) f hinv.step
    · intro j hj
      have := hr (j + 1) (by omega)
      rwa [Function.iterate_succ_apply] at this
    · rwa [Function.iterate_succ_apply] at hn
    · rw [tick_current_time]; push_cast at ht; omega
    · have := tick_cars_washed s minutes st
      have h2 : (tick s minutes st).cars_washed ≤ st.cars_washed + 1 := by
        rw [this]; split <;> omega
      push_cast at hc; omega
    · omega

/-- For `0 ≤ minutes < 2^30` the 32-bit `run` terminates, within
`2 * minutes + 1` evaluations of the loop condition, in the final state of the
unbounded `run` with `total_wait_time` wrapped. -/
theorem runLoop32_init (s : Nat → Int) (g : Nat) (minutes : Int)
    (h0 : 0 ≤ minutes) (h1 : minutes ≤ 1073741823) (fuel : Nat)
    (hf : 2 * minutes.toNat < fuel) :
    runLoop32 s minutes fuel (RunState.init g) =
      some (runLoop s minutes (RunState.init g)).wrapTotal := by
  obtain ⟨n, hn, heq, _, hr⟩ := run_final_time s g minutes
  have hstop : ¬ running minutes ((tick s minutes)^[n] (RunState.init g)) := by
    rw [← heq]
    exact (runLoop_invariant s minutes (fun _ => True) (fun _ _ _ => trivial)
      (RunState.init g) trivial).2
  have := runLoop32_eq s g minutes n (RunState.init g) fuel (Inv.init s g minutes)
    hr hstop
    (by rw [show (RunState.init g).current_time = 0 from rfl]; omega)
    (by rw [show (RunState.init g).cars_washed = 0 from rfl]; omega)
    (by omega)
  rw [heq, ← this]
  rfl

/-! ## Accumulators stay in range -/

/-- After any number of ticks of `run(minutes)`, `minutes ≥ 0`: at most
`2 * minutes` cars washed, twice the longest wait is at most the number of cars
washed, and the total wait is at most `minutes * minutes`. -/
theorem state_bounds (s : Nat → Int) (g : Nat) (minutes : Int) (n : Nat) :
    0 ≤ ((tick s minutes)^[n] (RunState.init g)).cars_washed ∧
      ((tick s minutes)^[n] (RunState.init g)).cars_washed ≤ 2 * (minutes.toNat : Int) ∧
      ((tick s minutes)^[n] (RunState.init g)).cars_washed ≤ n ∧
      0 ≤ ((tick s minutes)^[n] (RunState.init g)).max_wait_time ∧
      ((tick s minutes)^[n] (RunState.init g)).max_wait_time ≤ (minutes.toNat : Int) ∧
      0 ≤ ((tick s minutes)^[n] (RunState.init g)).total_wait_time ∧
      ((tick s minutes)^[n] (RunState.init g)).total_wait_time ≤
        (minutes.toNat : Int) * (minutes.toNat : Int) := by
  have hinv := (Inv.init s g minutes).iterate n
  have hb := Bounds.afterTicks s g minutes n
  have hc := iterate_cars_washed_le s minutes (RunState.init g) n
  rw [show (RunState.init g).cars_washed = 0 from rfl, zero_add] at hc
  have h1 := hinv.washed_nonneg
  have h2 := hinv.washed_le
  have h3 := hb.max_le
  have h4 := hb.total_le
  refine ⟨h1, h2, hc, hinv.max_nonneg, by omega, hinv.total_nonneg, ?_⟩
  generalize ((tick s minutes)^[n] (RunState.init g)).cars_washed = c at *
  generalize ((tick s minutes)^[n] (RunState.init g)).total_wait_time = tw at *
  generalize (minutes.toNat : Int) = M at *
  have h5 : c * c ≤ (2 * M) * (2 * M) := mul_le_mul h2 h2 h1 (by omega)
  have e : (2 * M) * (2 * M) = 4 * (M * M) := by ring
  rw [e] at h5
  generalize M * M = x at *
  generalize c * c = y at *
  omega

/-- Bounds on the final state of `run(minutes)` for `minutes ≥ 0`. -/
theorem run_final_bounds (s : Nat → Int) (g : Nat) (minutes : Int) (h : 0 ≤ minutes) :
    0 ≤ (runLoop s minutes (RunState.init g)).total_wait_time ∧
      (runLoop s minutes (RunState.init g)).total_wait_time ≤ minutes * minutes ∧
      (runLoop s minutes (RunState.init g)).cars_washed ≤ 2 * minutes ∧
      (runLoop s minutes (RunState.init g)).max_wait_time ≤ minutes ∧
      (runLoop s minutes (RunState.init g)).current_time ≤ 2 * minutes := by
  obtain ⟨n, hn, heq, ht, _⟩ := run_final_time s g minutes
  have hb := state_bounds s g minutes n
  rw [← heq, Int.toNat_of_nonneg h] at hb
  refine ⟨hb.2.2.2.2.2.1, hb.2.2.2.2.2.2, hb.2.1, hb.2.2.2.2.1, ?_⟩
  rw [ht]; omega

/-- For `0 ≤ minutes ≤ 46340` the 32-bit `run` is the unbounded `run`. -/
theorem run32_eq_run (s : Nat → Int) (g : Nat) (minutes : Int) (h0 : 0 ≤ minutes)
    (h1 : minutes ≤ 46340) (fuel : Nat) (hf : 2 * minutes.toNat < fuel) :
    run32 fuel s g minutes = some (run s g minutes) := by
  obtain ⟨hb0, hb1, _⟩ := run_final_bounds s g minutes h0
  have hsq : minutes * minutes ≤ 46340 * 46340 := mul_le_mul h1 h1 h0 (by omega)
  have hw : (runLoop s minutes (RunState.init g)).wrapTotal =
      runLoop s minutes (RunState.init g) := by
    unfold RunState.wrapTotal
    rw [wrap32_of_range _ (by omega) (by omega)]
  unfold run32
  rw [runLoop32_init s g minutes h0 (by omega) fuel hf, hw]
  rfl

/-- C17: for every `minutes ≥ 0` and every sample stream, with unbounded
integers, the final `total_wait_time` of `run(minutes)` is at most
`minutes * minutes`, `cars_washed ≤ 2 * minutes` and
`current_time ≤ 2 * minutes`; the car served as number `k` (counting from 0)
waits at most `(k + 1) / 2` minutes.  Hence for `0 ≤ minutes ≤ 46340`, which
includes the default 43200, every value taken by an accumulator, a timestamp or
a wait during the run lies in `0 .. 2^31 - 1`, and the run with 32-bit
arithmetic is the run with unbounded integers. -/
theorem run_accumulators_bounded (s : Nat → Int) (g : Nat) (minutes : Int)
    (h : 0 ≤ minutes) :
    ((runLoop s minutes (RunState.init g)).total_wait_time ≤ minutes * minutes ∧
        (runLoop s minutes (RunState.init g)).cars_washed ≤ 2 * minutes ∧
        (runLoop s minutes (RunState.init g)).current_time ≤ 2 * minutes) ∧
      (∀ (n : Nat) (arrival_time : Int) (rest : List Int),
        (arrive s minutes ((tick s minutes)^[n] (RunState.init g))).car_queue =
          arrival_time :: rest →
        2 * (((tick s minutes)^[n] (RunState.init g)).current_time - arrival_time) ≤
          ((tick s minutes)^[n] (RunState.init g)).cars_washed + 1) ∧
      (minutes ≤ 46340 →
        (∃ N : Nat,
          runLoop s minutes (RunState.init g) = (tick s minutes)^[N] (RunState.init g) ∧
          ∀ n : Nat, n ≤ N →
            InRange32 ((tick s minutes)^[n] (RunState.init g)).current_time ∧
            InRange32 ((tick s minutes)^[n] (RunState.init g)).cars_washed ∧
            InRange32 ((tick s minutes)^[n] (RunState.init g)).total_wait_time ∧
            InRange32 ((tick s minutes)^[n] (RunState.init g)).max_wait_time ∧
            ∀ a ∈ (arrive s minutes ((tick s minutes)^[n] (RunState.init g))).car_queue,
              InRange32 a ∧
              InRange32 (((tick s minutes)^[n] (RunState.init g)).current_time - a)) ∧
        (∀ fuel : Nat, 2 * minutes.toNat < fuel →
          run32 fuel s g minutes = some (run s g minutes))) ∧
      (0 : Int) ≤ 43200 ∧ (43200 : Int) ≤ 46340 := by
  obtain ⟨_, hb1, hb2, _, hb4⟩ := run_final_bounds s g minutes h
  refine ⟨⟨hb1, hb2, hb4⟩, ?_, ?_, by decide, by decide⟩
  · intro n a rest hq
    have hw : WaitOk ((tick s minutes)^[n] (RunState.init g)).current_time
        ((tick s minutes)^[n] (RunState.init g)).cars_washed
        (arrive s minutes ((tick s minutes)^[n] (RunState.init g))).car_queue :=
      (Bounds.afterTicks s g minutes n).afterArrive
    rw [hq] at hw
    exact hw.1
  · intro h1
    refine ⟨?_, fun fuel hf => run32_eq_run s g minutes h h1 fuel hf⟩
    obtain ⟨N, hN, heq, _, _⟩ := run_final_time s g minutes
    refine ⟨N, heq, ?_⟩
    intro n hn
    obtain ⟨c0, c1, c2, m0, m1, t0, t1⟩ := state_bounds s g minutes n
    have hmid := ((Inv.init s g minutes).iterate n).toMid
    have hct : ((tick s minutes)^[n] (RunState.init g)).current_time = n := by
      rw [iterate_current_time]; simp [RunState.init]
    have hM : (minutes.toNat : Int) ≤ 46340 := by omega
    have hM0 : (0 : Int) ≤ (minutes.toNat : Int) := by omega
    have hsq : (minutes.toNat : Int) * (minutes.toNat : Int) ≤ 46340 * 46340 :=
      mul_le_mul hM hM hM0 (by omega)
    unfold InRange32
    refine ⟨by omega, by omega, by omega, by omega, ?_⟩
    intro a ha
    have := hmid.queue_le a ha
    rw [arrive_current_time] at this
    omega

/-- Witness for C17 at `minutes = 1` on the stream that is constantly 3. -/
theorem run_accumulators_bounded_witness :
    (0 : Int) ≤ 1 ∧
      (runLoop (fun _ => 3) 1 (RunState.init 0)).total_wait_time ≤ 1 * 1 ∧
      (runLoop (fun _ => 3) 1 (RunState.init 0)).cars_washed ≤ 2 * 1 ∧
      (runLoop (fun _ => 3) 1 (RunState.init 0)).current_time ≤ 2 * 1 :=
  ⟨by decide, (run_accumulators_bounded (fun _ => 3) 0 1 (by decide)).1⟩

/-! ## `run` with 32-bit arithmetic -/

/-- Counterexample to C12 as stated: with 32-bit wrap-around arithmetic, on the
stream that is constantly 3, `run(46341)` terminates (for every fuel above
`2 * 46341`) with `total_cars = 92682` and a total wait of `46341 * 46341`
wrapped to `-2147479015`, so its `average_wait` is negative. -/
theorem run32_average_negative :
    (0 : Int) ≤ 46341 ∧ (46341 : Int) ≤ 2147483647 ∧
      (∀ fuel : Nat, 92682 < fuel →
        run32 fuel (fun _ => 3) 0 46341 =
          some ({ duration := 46341, total_cars := 92682, longest_wait := 46341,
                  average_wait := (-2147479015 : ℚ) / 92682 }, 46341)) ∧
      (-2147479015 : ℚ) / 92682 < 0 := by
  refine ⟨by decide, by decide, ?_, by norm_num⟩
  intro fuel hf
  have hb : runLoop (fun _ => 3) (46341 : Int) (RunState.init 0) =
      { car_queue := [], current_time := 92682, cars_washed := 92682,
        total_wait_time := 2147488281, max_wait_time := 46341, random := 46341 } := by
    have := busy_final 0 46341
    simpa using this
  have hw : wrap32 2147488281 = -2147479015 := by decide
  unfold run32
  rw [runLoop32_init (fun _ => 3) 0 46341 (by decide) (by decide) fuel
    (by simpa using hf), hb]
  simp only [RunState.wrapTotal, hw, Option.map_some', mkResult]
  norm_num

/-- C12, amended: with 32-bit wrap-around arithmetic, for every `minutes` with
`0 ≤ minutes ≤ 2^30 - 1` and every sample stream, `run(minutes)` terminates
(any fuel above `2 * minutes` suffices) with `duration = minutes`,
`total_cars ≥ 0` and `longest_wait ≥ 0`, these and the generator position being
those of the run with unbounded integers; and for `minutes ≤ 46340` the whole
result is that of the unbounded run, so `average_wait ≥ 0` as well. -/
theorem run32_well_formed (s : Nat → Int) (g : Nat) (minutes : Int)
    (h0 : 0 ≤ minutes) (h1 : minutes ≤ 1073741823) (fuel : Nat)
    (hf : 2 * minutes.toNat < fuel) :
    ∃ r : SimulationResult × Nat,
      run32 fuel s g minutes = some r ∧
      r.1.duration = minutes ∧ 0 ≤ r.1.total_cars ∧ 0 ≤ r.1.longest_wait ∧
      r.1.total_cars = (run s g minutes).1.total_cars ∧
      r.1.longest_wait = (run s g minutes).1.longest_wait ∧
      r.2 = (run s g minutes).2 ∧
      (minutes ≤ 46340 → r = run s g minutes ∧ 0 ≤ r.1.average_wait) := by
  have hinv := (runLoop_exit s g minutes).1
  refine ⟨(mkResult minutes (runLoop s minutes (RunState.init g)).wrapTotal,
    (runLoop s minutes (RunState.init g)).wrapTotal.random), ?_, rfl,
    hinv.washed_nonneg, hinv.max_nonneg, rfl, rfl, rfl, ?_⟩
  · unfold run32
    rw [runLoop32_init s g minutes h0 h1 fuel hf]
    rfl
  · intro h2
    have heq := run32_eq_run s g minutes h0 h2 fuel hf
    unfold run32 at heq
    rw [runLoop32_init s g minutes h0 h1 fuel hf] at heq
    have heq' : (mkResult minutes (runLoop s minutes (RunState.init g)).wrapTotal,
        (runLoop s minutes (RunState.init g)).wrapTotal.random) = run s g minutes :=
      Option.some.inj heq
    refine ⟨heq', ?_⟩
    rw [heq']
    show (0 : ℚ) ≤ (if (runLoop s minutes (RunState.init g)).cars_washed > 0 then _ else _)
    split
    · apply div_nonneg
      · exact_mod_cast hinv.total_nonneg
      · exact_mod_cast hinv.washed_nonneg
    · exact le_refl _

/-- Witness for C12, amended, at `minutes = 1` with fuel 3. -/
theorem run32_well_formed_witness :
    (0 : Int) ≤ 1 ∧ (1 : Int) ≤ 1073741823 ∧ 2 * (1 : Int).toNat < 3 ∧
      ∃ r : SimulationResult × Nat,
        run32 3 (fun _ => 3) 0 1 = some r ∧ r.1.duration = 1 ∧
        0 ≤ r.1.total_cars ∧ 0 ≤ r.1.longest_wait ∧
        r.1.total_cars = (run (fun _ => 3) 0 1).1.total_cars ∧
        r.1.longest_wait = (run (fun _ => 3) 0 1).1.longest_wait ∧
        r.2 = (run (fun _ => 3) 0 1).2 ∧
        ((1 : Int) ≤ 46340 → r = run (fun _ => 3) 0 1 ∧ 0 ≤ r.1.average_wait) :=
  ⟨by decide, by decide, by decide,
    run32_well_formed (fun _ => 3) 0 1 (by decide) (by decide) 3 (by decide)⟩

/-! ## The doubling loop with a 32-bit bound -/

/-- C19: for every `max_minutes` that fits a 32-bit `int`, the doubling loop of
`run_all` terminates after at most 27 iterations (each iteration appends one
result); every value taken by `time_duration` is positive, at most
`max_minutes` and unchanged by 32-bit wrap-around; the loop doubles
`time_duration` exactly when `2 * time_duration ≤ max_minutes`, which for
`max_minutes ≥ 0` is the test `time_duration <= max_minutes / 2`, and then the
doubled value neither exceeds `max_minutes` nor overflows. -/
theorem sweep_terminates (s : Nat → Int) (g : Nat) (max_minutes : Int)
    (h : max_minutes ≤ 2147483647) :
    (∀ resume : Bool,
      (sweepLoop s max_minutes resume 30 (by decide) [] g).1.length ≤ 27) ∧
      (∀ d ∈ durations (sweepLoop s max_minutes true 30 (by decide) [] g).1,
        0 < d ∧ d ≤ max_minutes ∧ wrap32 d = d) ∧
      (∀ (time_duration : Int) (hpos : 0 < time_duration)
        (results : List SimulationResult) (random : Nat),
        time_duration ≤ max_minutes →
        sweepLoop s max_minutes true time_duration hpos results random =
          if 2 * time_duration ≤ max_minutes then
            sweepLoop s max_minutes true (time_duration * 2) (by omega)
              (results ++ [(run s random time_duration).1])
              (run s random time_duration).2
          else
            (results ++ [(run s random time_duration).1],
              (run s random time_duration).2)) ∧
      (0 ≤ max_minutes → ∀ time_duration : Int,
        time_duration ≤ Int.tdiv max_minutes 2 ↔ 2 * time_duration ≤ max_minutes) ∧
      (∀ time_duration : Int, 0 < time_duration →
        2 * time_duration ≤ max_minutes →
        wrap32 (time_duration * 2) = time_duration * 2 ∧
          time_duration * 2 ≤ max_minutes) := by
  have hdur : 30 ≤ max_minutes →
      ∃ K : Nat, K ≤ 26 ∧ 30 * 2 ^ K ≤ max_minutes ∧
        durations (sweepLoop s max_minutes true 30 (by decide) [] g).1 =
          (List.range (K + 1)).map (fun k => (30 : Int) * 2 ^ k) := by
    intro h30
    obtain ⟨K, h1, _, h3⟩ :=
      sweepLoop_durations s max_minutes _ 30 (by decide) [] g rfl h30
    refine ⟨K, ?_, h1, h3⟩
    by_contra hc
    have := pow_two_le_of_le 27 K (by omega)
    norm_num at this
    omega
  refine ⟨?_, ?_, ?_, ?_, ?_⟩
  · intro resume
    by_cases hc : resume = true ∧ 30 ≤ max_minutes
    · obtain ⟨rfl, h30⟩ := hc
      obtain ⟨K, hK, _, h3⟩ := hdur h30
      have hl := congrArg List.length h3
      simp only [durations, List.length_map, List.length_range] at hl
      omega
    · rw [sweepLoop_stop s max_minutes resume 30 (by decide) [] g hc]
      simp
  · intro d hd
    by_cases h30 : 30 ≤ max_minutes
    · obtain ⟨K, hK, hle, h3⟩ := hdur h30
      rw [h3, List.mem_map] at hd
      obtain ⟨k, hk, rfl⟩ := hd
      rw [List.mem_range] at hk
      have h1 := pow_two_le_of_le k K (by omega)
      have h2 : (0 : Int) < 30 * 2 ^ k := by positivity
      exact ⟨h2, by omega, wrap32_of_range _ (by omega) (by omega)⟩
    · rw [sweepLoop_stop s max_minutes true 30 (by decide) [] g
        (by intro hc; exact h30 hc.2)] at hd
      exact absurd hd (List.not_mem_nil d)
  · intro td hpos results random hle
    by_cases h2 : 2 * td ≤ max_minutes
    · rw [if_pos h2]
      exact sweepLoop_double s max_minutes td hpos results random hle h2
    · rw [if_neg h2]
      exact sweepLoop_last s max_minutes td hpos results random hle (by omega)
  · intro h0 td
    exact le_tdiv_two_iff max_minutes td h0
  · intro td hpos h2
    exact ⟨wrap32_of_range _ (by omega) (by omega), by omega⟩

/-- Witness for C19 at `max_minutes = 100`. -/
theorem sweep_terminates_witness :
    (100 : Int) ≤ 2147483647 ∧
      ∀ resume : Bool,
        (sweepLoop (fun _ => 3) 100 resume 30 (by decide) [] 0).1.length ≤ 27 :=
  ⟨by decide, (sweep_terminates (fun _ => 3) 0 100 (by decide)).1⟩

end CarWash
